import Mathlib

/-!
Verification development for a small real-time state-synchronization server
(per-tenant document store, structural differ, sequence delta detector,
update coalescer). The definitions below are shallow embeddings of the
JavaScript source files (`index.js`, `part_000`, `part_001`); theorems settle
the specification claims against them.

JSON values are modeled as a tagged tree. JavaScript objects are association
lists in insertion order (first match wins on lookup, as in JS where keys are
unique). `undefined` is represented by `Option.none` wherever the source
distinguishes it from stored values.
-/

inductive Value where
  | null
  | bool (b : Bool)
  | num (n : Int)
  | str (s : String)
  | arr (elems : List Value)
  | obj (fields : List (String × Value))

mutual

def Value.beq : Value → Value → Bool
  | .null, .null => true
  | .bool a, .bool b => a == b
  | .num a, .num b => a == b
  | .str a, .str b => a == b
  | .arr xs, .arr ys => Value.beqList xs ys
  | .obj fs, .obj gs => Value.beqFields fs gs
  | .null, .bool _ => false
  | .null, .num _ => false
  | .null, .str _ => false
  | .null, .arr _ => false
  | .null, .obj _ => false
  | .bool _, .null => false
  | .bool _, .num _ => false
  | .bool _, .str _ => false
  | .bool _, .arr _ => false
  | .bool _, .obj _ => false
  | .num _, .null => false
  | .num _, .bool _ => false
  | .num _, .str _ => false
  | .num _, .arr _ => false
  | .num _, .obj _ => false
  | .str _, .null => false
  | .str _, .bool _ => false
  | .str _, .num _ => false
  | .str _, .arr _ => false
  | .str _, .obj _ => false
  | .arr _, .null => false
  | .arr _, .bool _ => false
  | .arr _, .num _ => false
  | .arr _, .str _ => false
  | .arr _, .obj _ => false
  | .obj _, .null => false
  | .obj _, .bool _ => false
  | .obj _, .num _ => false
  | .obj _, .str _ => false
  | .obj _, .arr _ => false

def Value.beqList : List Value → List Value → Bool
  | [], [] => true
  | x :: xs, y :: ys => Value.beq x y && Value.beqList xs ys
  | [], _ :: _ => false
  | _ :: _, [] => false

def Value.beqFields : List (String × Value) → List (String × Value) → Bool
  | [], [] => true
  | (k, v) :: fs, (l, w) :: gs => k == l && Value.beq v w && Value.beqFields fs gs
  | [], _ :: _ => false
  | _ :: _, [] => false

end

mutual

theorem Value.beq_iff : ∀ (a b : Value), (Value.beq a b = true) ↔ a = b
  | .null, .null => by simp [Value.beq]
  | .bool a, .bool b => by simp [Value.beq]
  | .num a, .num b => by simp [Value.beq]
  | .str a, .str b => by simp [Value.beq]
  | .arr xs, .arr ys => by simp [Value.beq, Value.beqList_iff xs ys]
  | .obj fs, .obj gs => by simp [Value.beq, Value.beqFields_iff fs gs]
  | .null, .bool _ => by simp [Value.beq]
  | .null, .num _ => by simp [Value.beq]
  | .null, .str _ => by simp [Value.beq]
  | .null, .arr _ => by simp [Value.beq]
  | .null, .obj _ => by simp [Value.beq]
  | .bool _, .null => by simp [Value.beq]
  | .bool _, .num _ => by simp [Value.beq]
  | .bool _, .str _ => by simp [Value.beq]
  | .bool _, .arr _ => by simp [Value.beq]
  | .bool _, .obj _ => by simp [Value.beq]
  | .num _, .null => by simp [Value.beq]
  | .num _, .bool _ => by simp [Value.beq]
  | .num _, .str _ => by simp [Value.beq]
  | .num _, .arr _ => by simp [Value.beq]
  | .num _, .obj _ => by simp [Value.beq]
  | .str _, .null => by simp [Value.beq]
  | .str _, .bool _ => by simp [Value.beq]
  | .str _, .num _ => by simp [Value.beq]
  | .str _, .arr _ => by simp [Value.beq]
  | .str _, .obj _ => by simp [Value.beq]
  | .arr _, .null => by simp [Value.beq]
  | .arr _, .bool _ => by simp [Value.beq]
  | .arr _, .num _ => by simp [Value.beq]
  | .arr _, .str _ => by simp [Value.beq]
  | .arr _, .obj _ => by simp [Value.beq]
  | .obj _, .null => by simp [Value.beq]
  | .obj _, .bool _ => by simp [Value.beq]
  | .obj _, .num _ => by simp [Value.beq]
  | .obj _, .str _ => by simp [Value.beq]
  | .obj _, .arr _ => by simp [Value.beq]

theorem Value.beqList_iff : ∀ (xs ys : List Value), (Value.beqList xs ys = true) ↔ xs = ys
  | [], [] => by simp [Value.beqList]
  | x :: xs, y :: ys => by
      simp [Value.beqList, Value.beq_iff x y, Value.beqList_iff xs ys]
  | [], _ :: _ => by simp [Value.beqList]
  | _ :: _, [] => by simp [Value.beqList]

theorem Value.beqFields_iff : ∀ (fs gs : List (String × Value)),
    (Value.beqFields fs gs = true) ↔ fs = gs
  | [], [] => by simp [Value.beqFields]
  | (k, v) :: fs, (l, w) :: gs => by
      simp [Value.beqFields, Value.beq_iff v w, Value.beqFields_iff fs gs, and_assoc]
  | [], _ :: _ => by simp [Value.beqFields]
  | _ :: _, [] => by simp [Value.beqFields]

end

instance : BEq Value := ⟨Value.beq⟩

instance Value.instDecEq : DecidableEq Value :=
  fun a b => decidable_of_iff (Value.beq a b = true) (Value.beq_iff a b)

instance : LawfulBEq Value where
  eq_of_beq h := (Value.beq_iff _ _).mp h
  rfl := (Value.beq_iff _ _).mpr rfl

mutual

/-- Executable structural size of a value (termination measure for the
recursive differs below). -/
def Value.vsize : Value → Nat
  | .null => 1
  | .bool _ => 1
  | .num _ => 1
  | .str _ => 1
  | .arr xs => Value.vsizeList xs + 1
  | .obj fs => Value.vsizeFields fs + 1

def Value.vsizeList : List Value → Nat
  | [] => 0
  | x :: xs => Value.vsize x + Value.vsizeList xs + 1

def Value.vsizeFields : List (String × Value) → Nat
  | [] => 0
  | kv :: fs => Value.vsize kv.2 + Value.vsizeFields fs + 1

end

theorem Value.vsize_pos : ∀ v : Value, 1 ≤ Value.vsize v
  | .null => by simp [Value.vsize]
  | .bool _ => by simp [Value.vsize]
  | .num _ => by simp [Value.vsize]
  | .str _ => by simp [Value.vsize]
  | .arr _ => by simp [Value.vsize]
  | .obj _ => by simp [Value.vsize]

theorem Value.vsizeList_mem {x : Value} {xs : List Value} (h : x ∈ xs) :
    Value.vsize x < Value.vsizeList xs + 1 := by
  induction xs with
  | nil => simp at h
  | cons y ys ih =>
      rcases List.mem_cons.mp h with h1 | h1
      · subst h1
        simp [Value.vsizeList]
        omega
      · have := ih h1
        simp [Value.vsizeList]
        omega

/-! ### Basic JavaScript value helpers -/

/-- Keys of an association list, in order (models `Object.keys` on a plain object). -/
def keysOf (fs : List (String × Value)) : List String := fs.map Prod.fst

/-- First-match association lookup; models JS property access on a plain object,
`none` standing for `undefined`. -/
def lookupF : List (String × Value) → String → Option Value
  | [], _ => none
  | (k, v) :: fs, key => if k = key then some v else lookupF fs key

/-- The fields of a value when it is a plain object, else `[]`
(models the `Object.keys(isPlainObject(x) ? x : {})` idiom of `index.js`). -/
def objFields : Value → List (String × Value)
  | .obj fs => fs
  | _ => []

/-- Models `isPlainObject` of `index.js`: true exactly for plain objects
(`Object.prototype.toString.call(v) === '[object Object]'`). -/
def isPlainObject : Value → Bool
  | .obj _ => true
  | _ => false

/-- JS falsiness on the modeled value space: `null`, `false`, `0`, `""` are falsy;
objects and arrays are always truthy. -/
def jsFalsy : Value → Bool
  | .null => true
  | .bool b => !b
  | .num n => n == 0
  | .str s => s == ""
  | _ => false

mutual

/-- Models JS `String(v)` coercion on the modeled value space. -/
def jsToString : Value → String
  | .null => "null"
  | .bool b => if b then "true" else "false"
  | .num n => toString n
  | .str s => s
  | .arr xs => jsToStringList xs
  | .obj _ => "[object Object]"

/-- Models `Array.prototype.toString` (elements joined by commas, `null` as empty). -/
def jsToStringList : List Value → String
  | [] => ""
  | [x] => (match x with | .null => "" | v => jsToString v)
  | x :: rest => (match x with | .null => "" | v => jsToString v) ++ "," ++ jsToStringList rest

end

/-- Models JS property read `v[key]`; `none` is `undefined`. Arrays and strings
answer numeric-string keys; primitives have no own properties. -/
def jsIndex (v : Value) (key : String) : Option Value :=
  match v with
  | .obj fs => lookupF fs key
  | .arr xs =>
      match key.toNat? with
      | some i => xs[i]?
      | none => none
  | .str s =>
      match key.toNat? with
      | some i => (s.toList[i]?).map (fun c => Value.str (String.singleton c))
      | none => none
  | _ => none

/-- Models `Object.keys(v)` / `for..in` enumeration: object keys in insertion
order, array and string indices as decimal strings, nothing for primitives. -/
def jsKeys (v : Value) : List String :=
  match v with
  | .obj fs => keysOf fs
  | .arr xs => (List.range xs.length).map toString
  | .str s => (List.range s.length).map toString
  | _ => []

/-- Models the `x || {}` idiom: falsy values are replaced by the empty object. -/
def orEmptyObj (v : Value) : Value :=
  if jsFalsy v then .obj [] else v

/-- Models the `o || {}` idiom applied to a possibly-`undefined` property read. -/
def jsOrEmptyObj : Option Value → Value
  | none => .obj []
  | some v => orEmptyObj v

/-- Own enumerable entries contributed by `...v` inside an object literal
(objects spread their fields, arrays and strings spread index-keyed entries,
primitives spread nothing). -/
def spreadFields : Value → List (String × Value)
  | .obj fs => fs
  | .arr xs => xs.enum.map (fun p => (toString p.1, p.2))
  | .str s => s.toList.enum.map (fun p => (toString p.1, Value.str (String.singleton p.2)))
  | _ => []

/-- Result fields of `{ ...a, ...b }`: `a`'s keys in order with `b`'s values
winning, then `b`'s new keys in order. -/
def mergeFields (a b : List (String × Value)) : List (String × Value) :=
  a.map (fun kv => (kv.1, (lookupF b kv.1).getD kv.2)) ++
    b.filter (fun kv => (lookupF a kv.1).isNone)

/-- Models the object literal `{ ...a, ...b }`. -/
def spreadMerge (a b : Value) : Value :=
  .obj (mergeFields (spreadFields a) (spreadFields b))

/-- Models `JSON.stringify(p) !== JSON.stringify(n)` where `p` may be `undefined`:
`JSON.stringify` is injective on the modeled value space, and
`JSON.stringify(undefined)` is the non-string `undefined`, unequal to any string. -/
def jsonStrNe (p : Option Value) (n : Value) : Bool :=
  match p with
  | none => true
  | some pv => pv != n

/-- True for values that are neither objects nor arrays. -/
def isScalar : Value → Bool
  | .obj _ => false
  | .arr _ => false
  | _ => true

/-- Models JS strict inequality `a !== b` between a freshly deserialized payload
value `a` and a stored value `b` (each possibly `undefined`): primitives compare
by value; objects and arrays are distinct heap references across socket.io
deserializations, hence always strictly unequal. -/
def strictNe : Option Value → Option Value → Bool
  | none, none => false
  | some a, some b =>
      if isScalar a && isScalar b then a != b else true
  | _, _ => true

/-- The dot-joined rendering of a structured path, as built by `deepDiffOps`
(`basePath ? basePath + "." + key : key`). -/
def pathStr (path : List String) : String := String.intercalate "." path

/-! ### Structural differ of `index.js` (`deepDiffOps`) -/

/-- One patch operation `{ op: 'set', path, value }`; the path is kept in
structured form (its dotted rendering is `pathStr`), and `value = none` is the
`undefined` tombstone emitted for removed keys. -/
structure Op where
  path : List String
  value : Option Value
deriving DecidableEq

theorem lookupF_vsize {fs : List (String × Value)} {key : String} {v : Value}
    (h : lookupF fs key = some v) : Value.vsize v < Value.vsizeFields fs + 1 := by
  induction fs with
  | nil => simp [lookupF] at h
  | cons kv fs ih =>
      obtain ⟨k, w⟩ := kv
      by_cases hk : k = key
      · simp [lookupF, hk] at h
        subst h
        simp [Value.vsizeFields]
        omega
      · simp [lookupF, hk] at h
        have := ih h
        simp [Value.vsizeFields]
        omega

theorem lookupF_objFields_vsize {v : Value} {key : String} {w : Value}
    (h : lookupF (objFields v) key = some w) : Value.vsize w < Value.vsize v := by
  cases v with
  | obj fs =>
      have := @lookupF_vsize fs key w (by simpa [objFields] using h)
      simp [Value.vsize]
      omega
  | null => simp [objFields, lookupF] at h
  | bool b => simp [objFields, lookupF] at h
  | num n => simp [objFields, lookupF] at h
  | str s => simp [objFields, lookupF] at h
  | arr xs => simp [objFields, lookupF] at h

/-- Fuel-indexed body of the structural differ `deepDiffOps(prev, next,
basePath)` of `index.js`: union of keys; removed keys get a tombstone; nested
plain objects recurse; arrays are replaced wholesale when length or any
element's serialization differs; otherwise a replace op is emitted when
serializations differ. The fuel only discharges termination (the recursion
descends into looked-up subvalues); `deepDiffOps` below supplies enough fuel,
so the zero-fuel branch is never reached. The loop body for one key of the
key union is `ddKeyDiff`, with the recursive call abstracted as `rec`. -/
def ddKeyDiff (rec : Value → Value → List String → List Op) (prev next : Value)
    (basePath : List String) (key : String) : List Op :=
  match lookupF (objFields next) key with
  | none => [⟨basePath ++ [key], none⟩]
  | some nv =>
      match lookupF (objFields prev) key, nv with
      | some (.obj pfs), .obj nfs => rec (.obj pfs) (.obj nfs) (basePath ++ [key])
      | some (.arr xs), .arr ys =>
          if xs.length != ys.length || (xs.zip ys).any (fun q => q.1 != q.2)
          then [⟨basePath ++ [key], some (.arr ys)⟩] else []
      | p, _ => if jsonStrNe p nv then [⟨basePath ++ [key], some nv⟩] else []

def deepDiffOpsF : Nat → Value → Value → List String → List Op
  | 0, _, _, _ => []
  | fuel + 1, prev, next, basePath =>
      ((keysOf (objFields prev) ++ keysOf (objFields next)).dedup).flatMap
        (ddKeyDiff (deepDiffOpsF fuel) prev next basePath)

/-- The structural differ `deepDiffOps` of `index.js` (see `deepDiffOpsF`). -/
def deepDiffOps (prev next : Value) (basePath : List String) : List Op :=
  deepDiffOpsF (Value.vsize next) prev next basePath

/-! ### Structural differ of `part_000` (`diffObjects`) -/

theorem jsIndex_vsize {v : Value} {key : String} {w : Value}
    (h : jsIndex v key = some w) (hw : isScalar w = false) :
    Value.vsize w < Value.vsize v := by
  cases v with
  | obj fs =>
      have h1 := @lookupF_vsize fs key w (by simpa [jsIndex] using h)
      simp [Value.vsize]
      omega
  | arr xs =>
      simp only [jsIndex] at h
      cases hk : key.toNat? with
      | none => simp [hk] at h
      | some i =>
          rw [hk] at h
          have h1 := Value.vsizeList_mem (List.getElem?_mem h)
          simp [Value.vsize]
          omega
  | str s =>
      simp only [jsIndex] at h
      cases hk : key.toNat? with
      | none => simp [hk] at h
      | some i =>
          rw [hk] at h
          simp only [Option.map_eq_some'] at h
          obtain ⟨c, _, hc⟩ := h
          subst hc
          simp [isScalar] at hw
  | null => simp [jsIndex] at h
  | bool b => simp [jsIndex] at h
  | num n => simp [jsIndex] at h

/-- The recursive differ `diffObjects(oldObj, newObj)` of `part_000`: iterates
only the new object's enumerable keys; `typeof == "object" && !== null` values
(objects and arrays alike) recurse against `oldObj[key] || {}` and contribute a
nested changes object when non-empty; other values contribute themselves when
strictly unequal to the old value. Removed keys are never visited. The result
is the field list of the returned `changes` object. The loop body for one
enumerated key is `diffKey`, with the recursive call abstracted as `rec`. -/
def diffKey (rec : Value → Value → List (String × Value)) (oldObj newObj : Value)
    (key : String) : List (String × Value) :=
  match jsIndex newObj key with
  | some (.obj nfs) =>
      let nested := rec (jsOrEmptyObj (jsIndex oldObj key)) (.obj nfs)
      if nested.length > 0 then [(key, .obj nested)] else []
  | some (.arr nys) =>
      let nested := rec (jsOrEmptyObj (jsIndex oldObj key)) (.arr nys)
      if nested.length > 0 then [(key, .obj nested)] else []
  | some nv => if some nv ≠ jsIndex oldObj key then [(key, nv)] else []
  | none => []

def diffObjectsF : Nat → Value → Value → List (String × Value)
  | 0, _, _ => []
  | fuel + 1, oldObj, newObj => (jsKeys newObj).flatMap (diffKey (diffObjectsF fuel) oldObj newObj)

/-- The differ `diffObjects` of `part_000` (see `diffObjectsF`; the fuel only
discharges termination and `Value.vsize newObj` always suffices). -/
def diffObjects (oldObj newObj : Value) : List (String × Value) :=
  diffObjectsF (Value.vsize newObj) oldObj newObj

/-! ### Patch application (modelled from the spec) -/

/-- Replace the first binding of `key` (keeping position), or append a new one. -/
def setField (fs : List (String × Value)) (key : String) (v : Value) :
    List (String × Value) :=
  match fs with
  | [] => [(key, v)]
  | (k, w) :: rest =>
      if k = key then (k, v) :: rest else (k, w) :: setField rest key v

/-- Remove every binding of `key`. -/
def delField : List (String × Value) → String → List (String × Value)
  | [], _ => []
  | (k, v) :: fs, key =>
      if k = key then delField fs key else (k, v) :: delField fs key

/-- Apply `f` to the value of the first binding of `key`, if present. -/
def modifyField (fs : List (String × Value)) (key : String) (f : Value → Value) :
    List (String × Value) :=
  match fs with
  | [] => []
  | (k, w) :: rest =>
      if k = key then (k, f w) :: rest else (k, w) :: modifyField rest key f

/-- Modelled from the spec: a `set` Patch Operation writes `value` at the
dot-path `path`; navigation into a missing or non-object position leaves the
value unchanged (generated patches never need it). -/
def setPath (v : Value) (path : List String) (w : Value) : Value :=
  match path, v with
  | [], _ => w
  | [k], .obj fs => .obj (setField fs k w)
  | k :: rest, .obj fs => .obj (modifyField fs k (fun u => setPath u rest w))
  | _, _ => v

/-- Modelled from the spec: a tombstone Patch Operation removes the field at the
dot-path `path` ("field removed" marker applied as a deletion). -/
def delPath (v : Value) (path : List String) : Value :=
  match path, v with
  | [], _ => v
  | [k], .obj fs => .obj (delField fs k)
  | k :: rest, .obj fs => .obj (modifyField fs k (fun u => delPath u rest))
  | _, _ => v

/-- Modelled from the spec: applying one Patch Operation. -/
def applyOp (v : Value) (op : Op) : Value :=
  match op.value with
  | some w => setPath v op.path w
  | none => delPath v op.path

/-- Modelled from the spec: applying a patch is applying its operations in order. -/
def applyOps (v : Value) (ops : List Op) : Value := ops.foldl applyOp v

/-- Read the value stored at a dot-path (`none` when absent). -/
def getPath (v : Value) : List String → Option Value
  | [] => some v
  | k :: rest =>
      match v with
      | .obj fs => (lookupF fs k).bind (fun w => getPath w rest)
      | _ => none

/-! ### Order-insensitive structural equality -/

/-- Decidable structural equivalence of JSON trees: scalars by value, arrays
pointwise, objects extensionally on their looked-up keys (insertion order and
duplicate shadowed bindings are irrelevant). This is the "structurally equal"
notion of the spec. -/
def vequivF : Nat → Value → Value → Bool
  | 0, _, _ => false
  | fuel + 1, a, b =>
      match a, b with
      | .null, .null => true
      | .bool x, .bool y => x == y
      | .num x, .num y => x == y
      | .str x, .str y => x == y
      | .arr xs, .arr ys =>
          xs.length == ys.length && (xs.zip ys).all (fun q => vequivF fuel q.1 q.2)
      | .obj fs, .obj gs =>
          ((keysOf fs ++ keysOf gs).dedup).all (fun k =>
            match lookupF fs k, lookupF gs k with
            | none, none => true
            | some v, some w => vequivF fuel v w
            | _, _ => false)
      | _, _ => false

/-- Structural equivalence of JSON trees (see `vequivF`; the fuel only
discharges termination and `Value.vsize a` always suffices). -/
def vequivB (a b : Value) : Bool := vequivF (Value.vsize a) a b

/-- Pointwise structural equivalence of possibly-absent values. -/
def optEquivB : Option Value → Option Value → Bool
  | none, none => true
  | some v, some w => vequivB v w
  | _, _ => false

/-- Field lookup seen through an arbitrary value (`none` off objects). -/
def lookupV (v : Value) (key : String) : Option Value :=
  match v with
  | .obj fs => lookupF fs key
  | _ => none

/-! ### Tenant store and handlers -/

/-- Models `keyFor = (userId) => (userId && String(userId).trim()) || 'default'`
(shared by all variants). The argument is the raw `userId` property of the
payload, `none` standing for `undefined`. -/
def keyFor (userId : Option Value) : String :=
  match userId with
  | none => "default"
  | some v =>
      if jsFalsy v then "default"
      else
        let t := (jsToString v).trim
        if t = "" then "default" else t

/-- One tenant's document `{ matchData, overlays, wagonData, updatedAt }`.
Timestamps are modeled as natural numbers supplied by the caller's clock;
`updatedAt = none` models both `null` and an absent field. -/
structure Doc where
  matchData : Value
  overlays : Value
  wagonData : Value
  updatedAt : Option Nat
deriving DecidableEq

/-- The global in-memory `state` object: tenant key to document, insertion
order preserved, keys unique in any run of the program. -/
abbrev Store := List (String × Doc)

/-- First-match store read (`state[k]`, `none` for absent tenants). -/
def lookupD : Store → String → Option Doc
  | [], _ => none
  | (k, d) :: st, key => if k = key then some d else lookupD st key

/-- Store write `state[k] = doc`: replace in place or append a new key. -/
def setD : Store → String → Doc → Store
  | [], key, doc => [(key, doc)]
  | (k, d) :: st, key, doc =>
      if k = key then (k, doc) :: st else (k, d) :: setD st key doc

/-- Socket emissions of `index.js` (room-targeted). -/
inductive Emit where
  | matchUpdate (room : String) (doc : Doc)
  | statePatch (room : String) (ops : List Op)
  | scoreUpdate (room : String) (fields : List (String × Option Value))
  | wagonAppend (room : String) (items : List Value) (startIndex : Nat)
  | wagonUpdate (room : String) (items : List Value)
deriving DecidableEq

/-- The `(prev.matchData && prev.matchData.score) || {}` read of `index.js`. -/
def prevScoreOf (matchData : Value) : Value :=
  if jsFalsy matchData then .obj []
  else
    match jsIndex matchData "score" with
    | none => .obj []
    | some v => if jsFalsy v then .obj [] else v

/-- The score patch loop of `index.js`: for every key of either score object,
keep the new value when it is strictly unequal (`!==`) to the old one.
Entries with value `none` model `scorePatch[key] = undefined`, which still
counts towards `Object.keys(scorePatch).length`. -/
def scorePatchOf (prevScore nextScore : Value) : List (String × Option Value) :=
  ((jsKeys prevScore ++ jsKeys nextScore).dedup).flatMap (fun key =>
    if strictNe (jsIndex nextScore key) (jsIndex prevScore key)
    then [(key, jsIndex nextScore key)] else [])

/-- The filter `ops.filter(op => !(op.path === 'matchData.score' ||
op.path.startsWith('matchData.score.')))` of `index.js`. -/
def filterScoreOps (ops : List Op) : List Op :=
  ops.filter (fun op =>
    !((pathStr op.path == "matchData.score") ||
      (pathStr op.path).startsWith "matchData.score."))

/-- The `publish-update` handler of `index.js` (the `deepDiffOps` variant):
merges the payload into the store, diffs the supplied fields against the
previous document, extracts a strictly-changed score patch when
`matchData.score` is a plain object, and emits `score-update` and/or
`state-patch` immediately. Returns the new store and the emissions in order. -/
def publishUpdateIx (st : Store) (now : Nat) (userId matchData overlays : Option Value) :
    Store × List Emit :=
  let k := keyFor userId
  let prev := (lookupD st k).getD ⟨.obj [], .obj [], .arr [], none⟩
  let nextMatch := match matchData with
    | some m => m
    | none => orEmptyObj prev.matchData
  let nextOver := match overlays with
    | some o => spreadMerge prev.overlays o
    | none => orEmptyObj prev.overlays
  let opsM := match matchData with
    | some (.obj mfs) => deepDiffOps (orEmptyObj prev.matchData) (.obj mfs) ["matchData"]
    | _ => []
  let opsO := match overlays with
    | some (.obj ofs) => deepDiffOps (orEmptyObj prev.overlays) (.obj ofs) ["overlays"]
    | _ => []
  let ops := opsM ++ opsO
  let st1 := setD st k ⟨nextMatch, nextOver, prev.wagonData, some now⟩
  let scorePart : Option (List (String × Option Value)) :=
    match matchData with
    | some (.obj mfs) =>
        match lookupF mfs "score" with
        | some (.obj sfs) =>
            let sp := scorePatchOf (prevScoreOf prev.matchData) (.obj sfs)
            if sp.length > 0 then some sp else none
        | _ => none
    | _ => none
  let (scoreEmits, ops2) :=
    match scorePart with
    | some sp => ([Emit.scoreUpdate k sp], filterScoreOps ops)
    | none => ([], ops)
  let patchEmits := if ops2.length > 0 then [Emit.statePatch k ops2] else []
  (st1, scoreEmits ++ patchEmits)

/-- The `publish-wagon` handler of `index.js`: stores the new array (when the
payload's `wagonData` is an array), then emits `wagon-append` with the tail
when the new array strictly extends the old one, else `wagon-update` with the
whole array. -/
def publishWagonIx (st : Store) (now : Nat) (userId wagonData : Option Value) :
    Store × List Emit :=
  let k := keyFor userId
  let prev := (lookupD st k).getD ⟨.obj [], .obj [], .arr [], none⟩
  let nextWagon := match wagonData with
    | some (.arr xs) => Value.arr xs
    | _ => prev.wagonData
  let st1 := setD st k ⟨prev.matchData, prev.overlays, nextWagon, some now⟩
  let oldArr := match prev.wagonData with
    | .arr xs => xs
    | _ => []
  let newArr := match nextWagon with
    | .arr xs => xs
    | _ => []
  let isAppendOnly :=
    decide (newArr.length ≥ oldArr.length) &&
      (oldArr.zip newArr).all (fun q => q.1 == q.2)
  let emits :=
    if isAppendOnly && decide (newArr.length > oldArr.length)
    then [Emit.wagonAppend k (newArr.drop oldArr.length) oldArr.length]
    else [Emit.wagonUpdate k newArr]
  (st1, emits)

/-- The `GET /api/state/:userId` handler of `index.js`: reads the store and
answers `state[k] || { matchData: null, overlays: {}, wagonData: [],
updatedAt: null }`, leaving the store untouched. -/
def getStateIx (st : Store) (userId : Option Value) : Doc × Store :=
  let k := keyFor userId
  ((lookupD st k).getD ⟨.null, .obj [], .arr [], none⟩, st)

/-- The raw `publish-update` socket entry point of `index.js`:
`(payload = {}) => { const { userId, matchData, overlays } = payload; ... }`.
An absent argument is defaulted to `{}`; destructuring a `null` payload throws
a `TypeError`, modeled as `Except.error`. -/
def publishUpdateIxRaw (st : Store) (now : Nat) (arg : Option Value) :
    Except Unit (Store × List Emit) :=
  let payload := arg.getD (.obj [])
  match payload with
  | .null => .error ()
  | p =>
      .ok (publishUpdateIx st now (jsIndex p "userId") (jsIndex p "matchData")
        (jsIndex p "overlays"))

/-! ### Batching variants (`part_000`, `part_001`) -/

/-- One pending update descriptor `{ type, data }` of the batching variants. -/
structure PUpd where
  type : String
  data : Value
deriving DecidableEq

/-- The `pendingUpdates` object: tenant key to its ordered pending list. -/
abbrev Pending := List (String × List PUpd)

/-- First-match pending read. -/
def lookupP : Pending → String → Option (List PUpd)
  | [], _ => none
  | (k, q) :: ps, key => if k = key then some q else lookupP ps key

/-- Pending write (replace in place or append a new key). -/
def setP : Pending → String → List PUpd → Pending
  | [], key, q => [(key, q)]
  | (k, q0) :: ps, key, q =>
      if k = key then (k, q) :: ps else (k, q0) :: setP ps key q

/-- `scheduleUpdate(userId, updateType, data)` of `part_000`/`part_001`:
initialize the tenant's list if missing, then push the descriptor. -/
def scheduleUpdate (pending : Pending) (userId : String) (u : PUpd) : Pending :=
  match lookupP pending userId with
  | none => pending ++ [(userId, [u])]
  | some q => setP pending userId (q ++ [u])

/-- One tick of the 500ms `setInterval` flush of `part_000`/`part_001`: every
tenant with a non-empty pending list gets exactly one `bulk-update` emission
carrying that whole list, and its list is reset to `[]`. Returns the
emissions in store order and the new pending map. -/
def flushTick (pending : Pending) : List (String × List PUpd) × Pending :=
  (pending.filter (fun e => !e.2.isEmpty), pending.map (fun e => (e.1, ([] : List PUpd))))

/-- The lazily-created document of `part_000`/`part_001`:
`{ matchData: {}, overlays: {}, wagonData: {}, updatedAt: Date.now() }`
(note `wagonData` is an empty *object* in these variants). -/
def emptyDocP0 (now : Nat) : Doc := ⟨.obj [], .obj [], .obj [], some now⟩

/-- The `join` handler of `part_000`/`part_001`: lazily create the document,
then reply with the stored document (`init-state`). -/
def joinP0 (st : Store) (now : Nat) (userId : Option Value) : Store × Doc :=
  let key := keyFor userId
  let st1 := if (lookupD st key).isNone then setD st key (emptyDocP0 now) else st
  (st1, (lookupD st1 key).getD (emptyDocP0 now))

/-- The `publish-update` handler of `part_000`: per field, when the payload
value is truthy and `diffObjects` against the stored field is non-empty, the
field is shallow-merged into the store and the diff is recorded in `changes`;
`updatedAt` is always refreshed; a single `"update"` descriptor is enqueued
when `changes` is non-empty. -/
def publishUpdateP0 (st : Store) (pending : Pending) (now : Nat)
    (userId matchData overlays : Option Value) : Store × Pending :=
  let key := keyFor userId
  let st1 := if (lookupD st key).isNone then setD st key (emptyDocP0 now) else st
  let doc := (lookupD st1 key).getD (emptyDocP0 now)
  let mPart : Value × List (String × Value) :=
    match matchData with
    | some m =>
        if jsFalsy m then (doc.matchData, [])
        else
          let diff := diffObjects doc.matchData m
          if diff.length > 0 then (spreadMerge doc.matchData m, [("matchData", .obj diff)])
          else (doc.matchData, [])
    | none => (doc.matchData, [])
  let oPart : Value × List (String × Value) :=
    match overlays with
    | some o =>
        if jsFalsy o then (doc.overlays, [])
        else
          let diff := diffObjects doc.overlays o
          if diff.length > 0 then (spreadMerge doc.overlays o, [("overlays", .obj diff)])
          else (doc.overlays, [])
    | none => (doc.overlays, [])
  let changes := mPart.2 ++ oPart.2
  let st2 := setD st1 key ⟨mPart.1, oPart.1, doc.wagonData, some now⟩
  let pending1 :=
    if changes.length > 0 then scheduleUpdate pending key ⟨"update", .obj changes⟩
    else pending
  (st2, pending1)

/-- The `publish-wagon` handler of `part_000`: when the payload's `wagonData`
is truthy and its serialization differs from the stored one, store it,
refresh `updatedAt`, and enqueue a `"wagon"` descriptor carrying the whole
new value; otherwise do nothing beyond the lazy create. -/
def publishWagonP0 (st : Store) (pending : Pending) (now : Nat)
    (userId wagonData : Option Value) : Store × Pending :=
  let key := keyFor userId
  let st1 := if (lookupD st key).isNone then setD st key (emptyDocP0 now) else st
  let doc := (lookupD st1 key).getD (emptyDocP0 now)
  match wagonData with
  | some w =>
      if jsFalsy w then (st1, pending)
      else if w ≠ doc.wagonData then
        (setD st1 key ⟨doc.matchData, doc.overlays, w, some now⟩,
          scheduleUpdate pending key ⟨"wagon", .obj [("wagonData", w)]⟩)
      else (st1, pending)
  | none => (st1, pending)

/-- The raw `publish-update` socket entry point of `part_000`:
`({ userId, matchData, overlays }) => ...` with no default, so destructuring
an absent (`undefined`) or `null` payload throws, modeled as `Except.error`. -/
def publishUpdateP0Raw (st : Store) (pending : Pending) (now : Nat) (arg : Option Value) :
    Except Unit (Store × Pending) :=
  match arg with
  | none => .error ()
  | some .null => .error ()
  | some p =>
      .ok (publishUpdateP0 st pending now (jsIndex p "userId") (jsIndex p "matchData")
        (jsIndex p "overlays"))

/-- The `publish-update` handler of `part_001`: per field, when the payload
value is truthy and its serialization differs from the stored one, the stored
field is *replaced* by the payload value (no merge) and recorded in `changes`;
`updatedAt` is always refreshed; one `"update"` descriptor is enqueued when
`changes` is non-empty. -/
def publishUpdateP1 (st : Store) (pending : Pending) (now : Nat)
    (userId matchData overlays : Option Value) : Store × Pending :=
  let key := keyFor userId
  let st1 := if (lookupD st key).isNone then setD st key (emptyDocP0 now) else st
  let doc := (lookupD st1 key).getD (emptyDocP0 now)
  let mPart : Value × List (String × Value) :=
    match matchData with
    | some m =>
        if jsFalsy m then (doc.matchData, [])
        else if m ≠ doc.matchData then (m, [("matchData", m)])
        else (doc.matchData, [])
    | none => (doc.matchData, [])
  let oPart : Value × List (String × Value) :=
    match overlays with
    | some o =>
        if jsFalsy o then (doc.overlays, [])
        else if o ≠ doc.overlays then (o, [("overlays", o)])
        else (doc.overlays, [])
    | none => (doc.overlays, [])
  let changes := mPart.2 ++ oPart.2
  let st2 := setD st1 key ⟨mPart.1, oPart.1, doc.wagonData, some now⟩
  let pending1 :=
    if changes.length > 0 then scheduleUpdate pending key ⟨"update", .obj changes⟩
    else pending
  (st2, pending1)

/-! ### Association-list lemmas -/

theorem all_congr_mem {α : Type} {l : List α} {p q : α → Bool}
    (h : ∀ x ∈ l, p x = q x) : l.all p = l.all q := by
  induction l with
  | nil => rfl
  | cons x xs ih =>
      simp only [List.all_cons]
      rw [h x (by simp), ih (fun y hy => h y (by simp [hy]))]

theorem lookupF_eq_none_iff {fs : List (String × Value)} {key : String} :
    lookupF fs key = none ↔ key ∉ keysOf fs := by
  induction fs with
  | nil => simp [lookupF, keysOf]
  | cons kv fs ih =>
      obtain ⟨k, v⟩ := kv
      by_cases hk : k = key
      · subst hk
        simp [lookupF, keysOf]
      · have hk2 : ¬ key = k := fun h => hk h.symm
        simp [lookupF, keysOf, hk, hk2, List.mem_cons] at ih ⊢
        exact ih

theorem exists_lookupF_of_mem {fs : List (String × Value)} {key : String}
    (h : key ∈ keysOf fs) : ∃ v, lookupF fs key = some v := by
  cases hl : lookupF fs key with
  | none => exact absurd h (lookupF_eq_none_iff.mp hl)
  | some v => exact ⟨v, rfl⟩

theorem zip_self_eq {α : Type} (xs : List α) : xs.zip xs = xs.map (fun x => (x, x)) := by
  induction xs with
  | nil => rfl
  | cons x xs ih => simp [List.zip_cons_cons, ih]

/-! ### Structural-equivalence lemmas -/

theorem vequivF_fuel : ∀ (f g : Nat) (a b : Value),
    Value.vsize a ≤ f → Value.vsize a ≤ g → vequivF f a b = vequivF g a b := by
  intro f
  induction f with
  | zero =>
      intro g a b hf _
      have := Value.vsize_pos a
      omega
  | succ f ih =>
      intro g a b hf hg
      cases g with
      | zero =>
          have := Value.vsize_pos a
          omega
      | succ g =>
          cases a <;> cases b <;> simp only [vequivF] <;> try rfl
          case arr.arr xs ys =>
            have hx : ∀ q ∈ xs.zip ys, vequivF f q.1 q.2 = vequivF g q.1 q.2 := by
              intro q hq
              have h1 := Value.vsizeList_mem (List.of_mem_zip hq).1
              have h2 : Value.vsize (Value.arr xs) = Value.vsizeList xs + 1 := by
                simp [Value.vsize]
              exact ih g q.1 q.2 (by omega) (by omega)
            rw [all_congr_mem hx]
          case obj.obj fs gs =>
            have hx : ∀ k ∈ (keysOf fs ++ keysOf gs).dedup,
                (match lookupF fs k, lookupF gs k with
                 | none, none => true
                 | some v, some w => vequivF f v w
                 | _, _ => false) =
                (match lookupF fs k, lookupF gs k with
                 | none, none => true
                 | some v, some w => vequivF g v w
                 | _, _ => false) := by
              intro k _
              cases hf' : lookupF fs k <;> cases hg' : lookupF gs k <;> simp only []
              have h1 := lookupF_vsize hf'
              have h2 : Value.vsize (Value.obj fs) = Value.vsizeFields fs + 1 := by
                simp [Value.vsize]
              exact ih g _ _ (by omega) (by omega)
            rw [all_congr_mem hx]

theorem vequivF_eq_vequivB {f : Nat} {v w : Value} (h : Value.vsize v ≤ f) :
    vequivF f v w = vequivB v w :=
  vequivF_fuel f (Value.vsize v) v w h le_rfl

theorem vequivF_refl : ∀ (f : Nat) (v : Value), Value.vsize v ≤ f → vequivF f v v = true := by
  intro f
  induction f with
  | zero =>
      intro v h
      have := Value.vsize_pos v
      omega
  | succ f ih =>
      intro v h
      cases v with
      | null => simp [vequivF]
      | bool b => simp [vequivF]
      | num n => simp [vequivF]
      | str s => simp [vequivF]
      | arr xs =>
          simp only [vequivF, zip_self_eq, Bool.and_eq_true, beq_iff_eq, List.all_eq_true]
          refine ⟨by simp, ?_⟩
          intro q hq
          obtain ⟨y, hy, rfl⟩ := List.mem_map.mp hq
          have h1 := Value.vsizeList_mem hy
          have h2 : Value.vsize (Value.arr xs) = Value.vsizeList xs + 1 := by simp [Value.vsize]
          exact ih y (by omega)
      | obj fs =>
          simp only [vequivF, List.all_eq_true]
          intro k _
          cases hl : lookupF fs k with
          | none => rfl
          | some v =>
              have h1 := lookupF_vsize hl
              have h2 : Value.vsize (Value.obj fs) = Value.vsizeFields fs + 1 := by
                simp [Value.vsize]
              exact ih _ (by omega)

theorem vequivB_refl (v : Value) : vequivB v v = true := vequivF_refl _ v le_rfl

theorem optEquivB_refl (o : Option Value) : optEquivB o o = true := by
  cases o <;> simp [optEquivB, vequivB_refl]

theorem vequivB_obj_iff {fs gs : List (String × Value)} :
    vequivB (.obj fs) (.obj gs) = true ↔
      ∀ k, optEquivB (lookupF fs k) (lookupF gs k) = true := by
  have hsz : Value.vsize (Value.obj fs) = Value.vsizeFields fs + 1 := by simp [Value.vsize]
  constructor
  · intro h k
    rw [vequivB, hsz] at h
    simp only [vequivF] at h
    rw [List.all_eq_true] at h
    by_cases hk : k ∈ (keysOf fs ++ keysOf gs).dedup
    · have h1 := h k hk
      cases hf' : lookupF fs k <;> cases hg' : lookupF gs k <;>
        rw [hf', hg'] at h1 <;> simp only [] at h1 <;> simp only [optEquivB]
      · exact absurd h1 (by simp)
      · exact absurd h1 (by simp)
      · rename_i vf vg
        rw [← @vequivF_eq_vequivB (Value.vsizeFields fs) vf vg
          (by have := lookupF_vsize hf'; omega)]
        exact h1
    · have hk1 : k ∉ keysOf fs :=
        fun hm => hk (List.mem_dedup.mpr (List.mem_append.mpr (Or.inl hm)))
      have hk2 : k ∉ keysOf gs :=
        fun hm => hk (List.mem_dedup.mpr (List.mem_append.mpr (Or.inr hm)))
      rw [lookupF_eq_none_iff.mpr hk1, lookupF_eq_none_iff.mpr hk2]
      rfl
  · intro h
    rw [vequivB, hsz]
    simp only [vequivF]
    rw [List.all_eq_true]
    intro k _
    have h1 := h k
    cases hf' : lookupF fs k <;> cases hg' : lookupF gs k <;>
      rw [hf', hg'] at h1 <;> simp only [optEquivB] at h1 <;> simp only []
    · exact absurd h1 (by simp)
    · exact absurd h1 (by simp)
    · rename_i vf vg
      rw [@vequivF_eq_vequivB (Value.vsizeFields fs) vf vg
        (by have := lookupF_vsize hf'; omega)]
      exact h1

/-! ### Patch-application lemmas -/

theorem lookupF_setField (fs : List (String × Value)) (key : String) (v : Value) (k2 : String) :
    lookupF (setField fs key v) k2 = if key = k2 then some v else lookupF fs k2 := by
  induction fs with
  | nil => by_cases h : key = k2 <;> simp [setField, lookupF, h]
  | cons kv fs ih =>
      obtain ⟨k, w⟩ := kv
      by_cases hk : k = key
      · subst hk
        by_cases h2 : k = k2 <;> simp [setField, lookupF, h2]
      · by_cases h2 : k = k2
        · subst h2
          have hkey : ¬ key = k := fun h => hk h.symm
          simp [setField, lookupF, hk, hkey]
        · simp [setField, lookupF, hk, h2, ih]

theorem lookupF_delField (fs : List (String × Value)) (key k2 : String) :
    lookupF (delField fs key) k2 = if key = k2 then none else lookupF fs k2 := by
  induction fs with
  | nil => by_cases h : key = k2 <;> simp [delField, lookupF, h]
  | cons kv fs ih =>
      obtain ⟨k, w⟩ := kv
      by_cases hk : k = key
      · subst hk
        by_cases h2 : k = k2
        · subst h2
          simp [delField, lookupF, ih]
        · simp [delField, lookupF, h2, ih]
      · by_cases h2 : k = k2
        · subst h2
          have hkey : ¬ key = k := fun h => hk h.symm
          simp [delField, lookupF, hk, hkey]
        · simp [delField, lookupF, hk, h2, ih]

theorem lookupF_modifyField (fs : List (String × Value)) (key : String) (f : Value → Value)
    (k2 : String) :
    lookupF (modifyField fs key f) k2
      = if key = k2 then (lookupF fs key).map f else lookupF fs k2 := by
  induction fs with
  | nil => by_cases h : key = k2 <;> simp [modifyField, lookupF, h]
  | cons kv fs ih =>
      obtain ⟨k, w⟩ := kv
      by_cases hk : k = key
      · subst hk
        by_cases h2 : k = k2 <;> simp [modifyField, lookupF, h2]
      · by_cases h2 : k = k2
        · subst h2
          have hkey : ¬ key = k := fun h => hk h.symm
          simp [modifyField, lookupF, hk, hkey]
        · simp [modifyField, lookupF, hk, h2, ih]

/-- The effect of one op on a single value slot (used when the op's path starts
with a key addressing that slot). -/
def subApply (rest : List String) (val : Option Value) (u : Value) : Value :=
  match val with
  | some w => setPath u rest w
  | none => delPath u rest

theorem subApply_eq_applyOp (path : List String) (val : Option Value) (u : Value) :
    subApply path val u = applyOp u ⟨path, val⟩ := by
  cases val <;> rfl

/-- The effect of one op on the field `k` of an object, expressed on the
looked-up slot. -/
def effectAt (k : String) (o : Option Value) (op : Op) : Option Value :=
  match op.path with
  | [] => o
  | k1 :: rest =>
      if k1 = k then
        match rest with
        | [] => op.value
        | _ :: _ => o.map (subApply rest op.value)
      else o

theorem applyOp_obj_shape (fs : List (String × Value)) (op : Op) (h : op.path ≠ []) :
    ∃ fs2, applyOp (.obj fs) op = .obj fs2 := by
  obtain ⟨path, val⟩ := op
  cases path with
  | nil => simp at h
  | cons k1 rest =>
      cases val with
      | some w =>
          cases rest with
          | nil => exact ⟨setField fs k1 w, rfl⟩
          | cons r rs => exact ⟨modifyField fs k1 (fun u => setPath u (r :: rs) w), rfl⟩
      | none =>
          cases rest with
          | nil => exact ⟨delField fs k1, rfl⟩
          | cons r rs => exact ⟨modifyField fs k1 (fun u => delPath u (r :: rs)), rfl⟩

theorem lookupV_applyOp (fs : List (String × Value)) (op : Op) (k : String)
    (h : op.path ≠ []) :
    lookupV (applyOp (.obj fs) op) k = effectAt k (lookupF fs k) op := by
  obtain ⟨path, val⟩ := op
  cases path with
  | nil => simp at h
  | cons k1 rest =>
      cases val with
      | some w =>
          cases rest with
          | nil =>
              show lookupF (setField fs k1 w) k = _
              rw [lookupF_setField]
              by_cases h1 : k1 = k <;> simp [effectAt, h1]
          | cons r rs =>
              show lookupF (modifyField fs k1 (fun u => setPath u (r :: rs) w)) k = _
              rw [lookupF_modifyField]
              by_cases h1 : k1 = k
              · simp only [effectAt, h1, if_pos rfl]
                rfl
              · simp [effectAt, h1]
      | none =>
          cases rest with
          | nil =>
              show lookupF (delField fs k1) k = _
              rw [lookupF_delField]
              by_cases h1 : k1 = k <;> simp [effectAt, h1]
          | cons r rs =>
              show lookupF (modifyField fs k1 (fun u => delPath u (r :: rs))) k = _
              rw [lookupF_modifyField]
              by_cases h1 : k1 = k
              · simp only [effectAt, h1, if_pos rfl]
                rfl
              · simp [effectAt, h1]

theorem applyOps_obj_shape (ops : List Op) (h : ∀ op ∈ ops, op.path ≠ []) :
    ∀ fs, ∃ fs2, applyOps (.obj fs) ops = .obj fs2 := by
  induction ops with
  | nil => exact fun fs => ⟨fs, rfl⟩
  | cons op ops ih =>
      intro fs
      obtain ⟨fs1, h1⟩ := applyOp_obj_shape fs op (h op (by simp))
      obtain ⟨fs2, h2⟩ := ih (fun o ho => h o (by simp [ho])) fs1
      refine ⟨fs2, ?_⟩
      show List.foldl applyOp (applyOp (.obj fs) op) ops = _
      rw [h1]
      exact h2

theorem lookupV_applyOps (ops : List Op) (h : ∀ op ∈ ops, op.path ≠ []) :
    ∀ (fs : List (String × Value)) (k : String),
      lookupV (applyOps (.obj fs) ops) k = ops.foldl (effectAt k) (lookupF fs k) := by
  induction ops with
  | nil => intro fs k; rfl
  | cons op ops ih =>
      intro fs k
      obtain ⟨fs1, h1⟩ := applyOp_obj_shape fs op (h op (by simp))
      have h2 : lookupF fs1 k = effectAt k (lookupF fs k) op := by
        have := lookupV_applyOp fs op k (h op (by simp))
        rw [h1] at this
        exact this
      have h3 : applyOps (.obj fs) (op :: ops) = applyOps (.obj fs1) ops := by
        show List.foldl applyOp (applyOp (.obj fs) op) ops = _
        rw [h1]
        rfl
      rw [h3, ih (fun o ho => h o (by simp [ho])) fs1 k, List.foldl_cons, h2]

theorem foldl_effectAt_skip {k : String} {ops : List Op}
    (h : ∀ op ∈ ops, ∀ k1 rest, op.path = k1 :: rest → k1 ≠ k) :
    ∀ o, ops.foldl (effectAt k) o = o := by
  induction ops with
  | nil => intro o; rfl
  | cons op ops ih =>
      intro o
      have h1 : effectAt k o op = o := by
        cases hp : op.path with
        | nil => simp [effectAt, hp]
        | cons k1 rest =>
            have := h op (by simp) k1 rest hp
            simp [effectAt, hp, this]
      rw [List.foldl_cons, h1]
      exact ih (fun o2 ho2 => h o2 (by simp [ho2])) o

theorem foldl_effectAt_group {k : String} {ops : List Op}
    (h : ∀ op ∈ ops, op.path ≠ []) :
    ∀ pv, (ops.map (fun op => Op.mk (k :: op.path) op.value)).foldl (effectAt k) (some pv)
      = some (applyOps pv ops) := by
  induction ops with
  | nil => intro pv; rfl
  | cons op ops ih =>
      intro pv
      rw [List.map_cons, List.foldl_cons]
      have h1 : effectAt k (some pv) ⟨k :: op.path, op.value⟩ = some (applyOp pv op) := by
        cases hp : op.path with
        | nil => exact absurd hp (h op (by simp))
        | cons r rs =>
            simp only [effectAt, if_pos rfl, Option.map_some', subApply_eq_applyOp]
            rw [show (Op.mk (r :: rs) op.value) = op by rw [← hp]]
            simp
      rw [h1]
      have h4 : applyOps pv (op :: ops) = applyOps (applyOp pv op) ops := rfl
      rw [h4]
      exact ih (fun o2 ho2 => h o2 (by simp [ho2])) (applyOp pv op)

/-! ### Structure of the `deepDiffOps` output -/

theorem list_eq_of_zip {xs ys : List Value} (hlen : xs.length = ys.length)
    (h : ∀ q ∈ xs.zip ys, q.1 = q.2) : xs = ys := by
  induction xs generalizing ys with
  | nil =>
      cases ys with
      | nil => rfl
      | cons y ys => simp at hlen
  | cons x xs ih =>
      cases ys with
      | nil => simp at hlen
      | cons y ys =>
          have h1 : x = y := h (x, y) (by simp [List.zip_cons_cons])
          have h2 : xs = ys := by
            apply ih (by simpa using hlen)
            intro q hq
            exact h q (by simp [List.zip_cons_cons, hq])
          rw [h1, h2]

theorem arrays_unchanged_iff {xs ys : List Value} :
    ((xs.length != ys.length || (xs.zip ys).any (fun q => q.1 != q.2)) = false) ↔ xs = ys := by
  constructor
  · intro h
    rw [Bool.or_eq_false_iff] at h
    obtain ⟨h1, h2⟩ := h
    rw [List.any_eq_false] at h2
    refine list_eq_of_zip (by simpa using h1) ?_
    intro q hq
    have := h2 q hq
    simpa using this
  · rintro rfl
    rw [Bool.or_eq_false_iff]
    refine ⟨by simp, ?_⟩
    rw [List.any_eq_false]
    intro q hq
    rw [zip_self_eq] at hq
    obtain ⟨y, _, rfl⟩ := List.mem_map.mp hq
    simp

theorem getPath_append (v : Value) (l1 l2 : List String) :
    getPath v (l1 ++ l2) = (getPath v l1).bind (fun w => getPath w l2) := by
  induction l1 generalizing v with
  | nil => simp [getPath]
  | cons k l1 ih =>
      cases v with
      | obj fs =>
          show ((lookupF fs k).bind fun w => getPath w (l1 ++ l2))
              = ((lookupF fs k).bind fun w => getPath w l1).bind fun w => getPath w l2
          cases lookupF fs k with
          | none => rfl
          | some w => simp [ih]
      | null => rfl
      | bool b => rfl
      | num n => rfl
      | str s => rfl
      | arr xs => rfl

theorem getPath_single (v : Value) (k : String) :
    getPath v [k] = lookupF (objFields v) k := by
  cases v with
  | obj fs =>
      show (lookupF fs k).bind (fun w => some w) = lookupF fs k
      cases lookupF fs k <;> rfl
  | null => rfl
  | bool b => rfl
  | num n => rfl
  | str s => rfl
  | arr xs => rfl

theorem ddKeyDiff_base {rec : Value → Value → List String → List Op} {prev next : Value}
    {base : List String} {key : String}
    (hrec : ∀ P N b, rec P N b = (rec P N []).map (fun op => Op.mk (b ++ op.path) op.value)) :
    ddKeyDiff rec prev next base key
      = (ddKeyDiff rec prev next [] key).map (fun op => Op.mk (base ++ op.path) op.value) := by
  simp only [ddKeyDiff]
  split
  · simp
  · split
    · rw [hrec _ _ (base ++ [key]), hrec _ _ ([] ++ [key])]
      rw [List.map_map]
      congr 1
      funext op
      simp
    · split <;> simp
    · split <;> simp

theorem ddF_base : ∀ (f : Nat) (prev next : Value) (base : List String),
    deepDiffOpsF f prev next base
      = (deepDiffOpsF f prev next []).map (fun op => Op.mk (base ++ op.path) op.value) := by
  intro f
  induction f with
  | zero => intro prev next base; rfl
  | succ f ih =>
      intro prev next base
      simp only [deepDiffOpsF]
      rw [List.map_flatMap]
      apply List.flatMap_congr
      intro key _
      exact ddKeyDiff_base (fun P N b => ih P N b)

theorem ddKeyDiff_mem {rec : Value → Value → List String → List Op} {prev next : Value}
    {base : List String} {key : String} {op : Op}
    (hop : op ∈ ddKeyDiff rec prev next base key) :
    (∃ val, op = Op.mk (base ++ [key]) val) ∨
    (∃ pfs nfs, lookupF (objFields prev) key = some (.obj pfs) ∧
        lookupF (objFields next) key = some (.obj nfs) ∧
        op ∈ rec (.obj pfs) (.obj nfs) (base ++ [key])) := by
  simp only [ddKeyDiff] at hop
  split at hop
  · simp at hop
    exact Or.inl ⟨none, hop⟩
  · rename_i nv hn
    split at hop
    · rename_i pfs nfs hpair
      exact Or.inr ⟨pfs, nfs, hpair, hn, hop⟩
    · split at hop
      · simp at hop
        exact Or.inl ⟨_, hop⟩
      · simp at hop
    · split at hop
      · simp at hop
        exact Or.inl ⟨_, hop⟩
      · simp at hop

theorem ddF_path_shape : ∀ (f : Nat) (prev next : Value) (base : List String),
    ∀ op ∈ deepDiffOpsF f prev next base, ∃ k rest, op.path = base ++ k :: rest := by
  intro f
  induction f with
  | zero =>
      intro prev next base op h
      simp [deepDiffOpsF] at h
  | succ f ih =>
      intro prev next base op hop
      simp only [deepDiffOpsF, List.mem_flatMap] at hop
      obtain ⟨key, _, hop⟩ := hop
      rcases ddKeyDiff_mem hop with ⟨val, rfl⟩ | ⟨pfs, nfs, hp, hn, hmem⟩
      · exact ⟨key, [], rfl⟩
      · obtain ⟨k2, rest, hrest⟩ := ih _ _ _ op hmem
        refine ⟨key, k2 :: rest, ?_⟩
        rw [hrest]
        simp

/-! ### Self-diff and non-empty-diff lemmas for `deepDiffOps` -/

theorem ddKeyDiff_self {rec : Value → Value → List String → List Op} {v : Value}
    {base : List String} {key : String}
    (hin : key ∈ keysOf (objFields v))
    (hrec : ∀ P b, rec P P b = []) :
    ddKeyDiff rec v v base key = [] := by
  obtain ⟨pv, hpv⟩ := exists_lookupF_of_mem hin
  simp only [ddKeyDiff]
  split
  · rename_i hn
    rw [hpv] at hn
    cases hn
  · rename_i nv hn
    split
    · rename_i pfs nfs hpair
      have h1 : Value.obj pfs = Value.obj nfs := by
        rw [hpair] at hn
        exact Option.some.inj hn
      rw [Value.obj.injEq] at h1
      rw [h1]
      exact hrec _ _
    · rename_i xs ys hpair
      have h1 : Value.arr xs = Value.arr ys := by
        rw [hpair] at hn
        exact Option.some.inj hn
      rw [Value.arr.injEq] at h1
      subst h1
      rw [if_neg]
      simp only [Bool.not_eq_true]
      exact arrays_unchanged_iff.mpr rfl
    · rw [hn]
      simp [jsonStrNe]

theorem ddF_self : ∀ (f : Nat) (v : Value) (base : List String),
    deepDiffOpsF f v v base = [] := by
  intro f
  induction f with
  | zero => intro v base; rfl
  | succ f ih =>
      intro v base
      simp only [deepDiffOpsF]
      rw [List.flatMap_eq_nil_iff]
      intro key hk
      have hin : key ∈ keysOf (objFields v) := by
        rcases List.mem_append.mp (List.mem_dedup.mp hk) with h | h <;> exact h
      exact ddKeyDiff_self hin (fun P b => ih P b)

/-- The structural differ never reports anything between a value and itself. -/
theorem deepDiffOps_self (v : Value) (base : List String) : deepDiffOps v v base = [] :=
  ddF_self _ v base

theorem ddKeyDiff_none_ne_nil {rec : Value → Value → List String → List Op} {next : Value}
    {base : List String} {key : String} {nv : Value}
    (hn : lookupF (objFields next) key = some nv) :
    ddKeyDiff rec (.obj []) next base key ≠ [] := by
  simp only [ddKeyDiff]
  split
  · rename_i h
    rw [hn] at h
    cases h
  · rename_i nv2 hn2
    split
    · rename_i pfs nfs hpair
      simp [objFields, lookupF] at hpair
    · rename_i xs ys hpair
      simp [objFields, lookupF] at hpair
    · simp [objFields, lookupF, jsonStrNe]

/-- Diffing any non-empty object against the empty object yields at least one op. -/
theorem deepDiffOps_from_empty_ne_nil {mfs : List (String × Value)} (h : mfs ≠ [])
    (base : List String) : deepDiffOps (.obj []) (.obj mfs) base ≠ [] := by
  intro hnil
  have hv : Value.vsize (Value.obj mfs) = Value.vsizeFields mfs + 1 := by simp [Value.vsize]
  rw [deepDiffOps, hv] at hnil
  simp only [deepDiffOpsF] at hnil
  rw [List.flatMap_eq_nil_iff] at hnil
  obtain ⟨⟨k0, v0⟩, hk0⟩ : ∃ kv, kv ∈ mfs := by
    cases mfs with
    | nil => exact absurd rfl h
    | cons a l => exact ⟨a, by simp⟩
  have hkey : k0 ∈ keysOf (objFields (Value.obj mfs)) := by
    simp only [objFields, keysOf]
    exact List.mem_map.mpr ⟨(k0, v0), hk0, rfl⟩
  have hmem : k0 ∈ (keysOf (objFields (Value.obj [])) ++ keysOf (objFields (.obj mfs))).dedup := by
    rw [List.mem_dedup]
    exact List.mem_append.mpr (Or.inr hkey)
  obtain ⟨nv, hn⟩ := exists_lookupF_of_mem hkey
  exact ddKeyDiff_none_ne_nil hn (hnil _ hmem)

/-! ### Reconstruction: applying the `deepDiffOps` patch rebuilds the target -/

theorem ddF_group_heads {f : Nat} {P N : Value} {key : String} :
    ∀ op ∈ ddKeyDiff (deepDiffOpsF f) P N [] key,
      ∀ k1 rest, op.path = k1 :: rest → k1 = key := by
  intro op hop k1 rest hpath
  rcases ddKeyDiff_mem hop with ⟨val, rfl⟩ | ⟨pfs, nfs, hp, hn, hmem⟩
  · simp at hpath
    exact hpath.1.symm
  · obtain ⟨k2, rest2, hrest⟩ := ddF_path_shape f _ _ _ op hmem
    rw [hrest] at hpath
    simp at hpath
    exact hpath.1.symm

theorem ddF_group_nonnil_path {f : Nat} {P N : Value} {key : String} :
    ∀ op ∈ ddKeyDiff (deepDiffOpsF f) P N [] key, op.path ≠ [] := by
  intro op hop
  rcases ddKeyDiff_mem hop with ⟨val, rfl⟩ | ⟨pfs, nfs, hp, hn, hmem⟩
  · simp
  · obtain ⟨k2, rest2, hrest⟩ := ddF_path_shape f _ _ _ op hmem
    simp [hrest]

theorem ddF_nonnil_path {f : Nat} {P N : Value} :
    ∀ op ∈ deepDiffOpsF f P N [], op.path ≠ [] := by
  intro op hop
  obtain ⟨k2, rest2, hrest⟩ := ddF_path_shape f P N [] op hop
  simp [hrest]

theorem effectAt_single (k : String) (o val : Option Value) :
    effectAt k o ⟨[] ++ [k], val⟩ = val := by
  simp [effectAt]

theorem ddKeyDiff_fold_effect {f : Nat} {fs gs : List (String × Value)} {k : String}
    (ih : ∀ fs' gs', Value.vsize (.obj gs') ≤ f →
      vequivB (applyOps (.obj fs') (deepDiffOpsF f (.obj fs') (.obj gs') [])) (.obj gs') = true)
    (hsz : Value.vsize (.obj gs) ≤ f + 1) :
    optEquivB
      ((ddKeyDiff (deepDiffOpsF f) (.obj fs) (.obj gs) [] k).foldl (effectAt k) (lookupF fs k))
      (lookupF gs k) = true := by
  simp only [ddKeyDiff]
  split
  · rename_i hn
    simp only [objFields] at hn
    rw [hn]
    show optEquivB (effectAt k (lookupF fs k) ⟨[] ++ [k], none⟩) none = true
    simp [effectAt, optEquivB]
  · rename_i nv hn
    split
    · rename_i pfs nfs hpair
      simp only [objFields] at hpair hn
      rw [List.nil_append, ddF_base f _ _ [k]]
      have hmapeq :
          (deepDiffOpsF f (.obj pfs) (.obj nfs) []).map
              (fun op => Op.mk ([k] ++ op.path) op.value)
            = (deepDiffOpsF f (.obj pfs) (.obj nfs) []).map
              (fun op => Op.mk (k :: op.path) op.value) := by
        apply List.map_congr_left
        intro op _
        simp
      rw [hmapeq, hpair, foldl_effectAt_group ddF_nonnil_path (.obj pfs)]
      rw [hn]
      show vequivB (applyOps (.obj pfs) (deepDiffOpsF f (.obj pfs) (.obj nfs) [])) (.obj nfs) = true
      apply ih
      have h1 := lookupF_vsize hn
      have h2 : Value.vsize (Value.obj gs) = Value.vsizeFields gs + 1 := by simp [Value.vsize]
      omega
    · rename_i xs ys hpair
      simp only [objFields] at hpair hn
      rw [hn]
      split
      · show optEquivB (effectAt k (lookupF fs k) ⟨[] ++ [k], some (.arr ys)⟩)
            (some (.arr ys)) = true
        simp [effectAt, optEquivB, vequivB_refl]
      · rename_i hcond
        have hxy : xs = ys := arrays_unchanged_iff.mp (by simpa using hcond)
        subst hxy
        rw [hpair]
        simp [optEquivB, vequivB_refl]
    · rename_i hno1 hno2
      simp only [objFields] at hn
      rw [hn]
      split
      · rw [List.foldl_cons, List.foldl_nil, effectAt_single]
        simp [optEquivB, vequivB_refl]
      · rename_i hcond
        rw [List.foldl_nil]
        simp only [objFields] at hcond
        cases hl2 : lookupF fs k with
        | none =>
            rw [hl2] at hcond
            simp [jsonStrNe] at hcond
        | some pv =>
            rw [hl2] at hcond
            simp [jsonStrNe] at hcond
            rw [hcond]
            simp [optEquivB, vequivB_refl]

theorem ddF_reconstructs : ∀ (f : Nat) (fs gs : List (String × Value)),
    Value.vsize (.obj gs) ≤ f →
    vequivB (applyOps (.obj fs) (deepDiffOpsF f (.obj fs) (.obj gs) [])) (.obj gs) = true := by
  intro f
  induction f with
  | zero =>
      intro fs gs hsz
      have := Value.vsize_pos (.obj gs)
      omega
  | succ f ih =>
      intro fs gs hsz
      have hops : deepDiffOpsF (f + 1) (.obj fs) (.obj gs) []
          = ((keysOf fs ++ keysOf gs).dedup).flatMap
              (ddKeyDiff (deepDiffOpsF f) (.obj fs) (.obj gs) []) := rfl
      have hshape : ∀ op ∈ deepDiffOpsF (f + 1) (.obj fs) (.obj gs) [], op.path ≠ [] :=
        ddF_nonnil_path
      obtain ⟨fs2, hfs2⟩ := applyOps_obj_shape _ hshape fs
      rw [hfs2, vequivB_obj_iff]
      intro k
      have hlk : lookupF fs2 k
          = (deepDiffOpsF (f + 1) (.obj fs) (.obj gs) []).foldl (effectAt k) (lookupF fs k) := by
        have h1 := lookupV_applyOps _ hshape fs k
        rw [hfs2] at h1
        exact h1
      rw [hlk, hops]
      have hskip : ∀ (L : List String), k ∉ L →
          ∀ op ∈ L.flatMap (ddKeyDiff (deepDiffOpsF f) (.obj fs) (.obj gs) []),
            ∀ k1 rest, op.path = k1 :: rest → k1 ≠ k := by
        intro L hkL op hop k1 rest hpath
        rw [List.mem_flatMap] at hop
        obtain ⟨key, hkeymem, hop⟩ := hop
        have hk1 := ddF_group_heads op hop k1 rest hpath
        subst hk1
        exact fun h => hkL (h ▸ hkeymem)
      by_cases hk : k ∈ (keysOf fs ++ keysOf gs).dedup
      · obtain ⟨L1, L2, hL⟩ := List.append_of_mem hk
        have hnd := List.nodup_dedup (keysOf fs ++ keysOf gs)
        rw [hL, List.nodup_middle] at hnd
        have hkL : k ∉ L1 ++ L2 := (List.nodup_cons.mp hnd).1
        have hkL1 : k ∉ L1 := fun h => hkL (List.mem_append.mpr (Or.inl h))
        have hkL2 : k ∉ L2 := fun h => hkL (List.mem_append.mpr (Or.inr h))
        rw [hL, List.flatMap_append, List.flatMap_cons, List.foldl_append, List.foldl_append]
        rw [foldl_effectAt_skip (hskip L1 hkL1)]
        rw [foldl_effectAt_skip (hskip L2 hkL2)]
        exact ddKeyDiff_fold_effect (fun fs' gs' h => ih fs' gs' h) hsz
      · have hkf : k ∉ keysOf fs :=
          fun h => hk (List.mem_dedup.mpr (List.mem_append.mpr (Or.inl h)))
        have hkg : k ∉ keysOf gs :=
          fun h => hk (List.mem_dedup.mpr (List.mem_append.mpr (Or.inr h)))
        rw [lookupF_eq_none_iff.mpr hkf]
        rw [foldl_effectAt_skip (hskip _ hk)]
        rw [lookupF_eq_none_iff.mpr hkg]
        rfl

/-- Applying the patch computed by `deepDiffOps` to the old object yields an
object structurally equivalent to the new object. -/
theorem deepDiffOps_reconstructs (fs gs : List (String × Value)) :
    vequivB (applyOps (.obj fs) (deepDiffOps (.obj fs) (.obj gs) [])) (.obj gs) = true :=
  ddF_reconstructs _ fs gs le_rfl

theorem ddF_minimal : ∀ (f : Nat) (prev next : Value) (base : List String) (A B : Value),
    getPath A base = some prev → getPath B base = some next →
    ∀ op ∈ deepDiffOpsF f prev next base, getPath A op.path ≠ getPath B op.path := by
  intro f
  induction f with
  | zero =>
      intro _ _ _ _ _ _ _ op hop
      simp [deepDiffOpsF] at hop
  | succ f ih =>
      intro prev next base A B hA hB op hop
      simp only [deepDiffOpsF, List.mem_flatMap] at hop
      obtain ⟨key, hkey, hop⟩ := hop
      have hAk : getPath A (base ++ [key]) = lookupF (objFields prev) key := by
        rw [getPath_append, hA]
        simp [getPath_single]
      have hBk : getPath B (base ++ [key]) = lookupF (objFields next) key := by
        rw [getPath_append, hB]
        simp [getPath_single]
      simp only [ddKeyDiff] at hop
      split at hop
      · rename_i hn
        simp at hop
        subst hop
        have hkp : key ∈ keysOf (objFields prev) := by
          rcases List.mem_append.mp (List.mem_dedup.mp hkey) with h | h
          · exact h
          · exact absurd h (lookupF_eq_none_iff.mp hn)
        obtain ⟨pv, hpv⟩ := exists_lookupF_of_mem hkp
        show getPath A (base ++ [key]) ≠ getPath B (base ++ [key])
        rw [hAk, hBk, hpv, hn]
        simp
      · rename_i nv hn
        split at hop
        · rename_i pfs nfs hpair
          exact ih (.obj pfs) (.obj nfs) (base ++ [key]) A B
            (by rw [hAk, hpair]) (by rw [hBk, hn]) op hop
        · rename_i xs ys hpair
          split at hop
          · rename_i hcond
            simp at hop
            subst hop
            show getPath A (base ++ [key]) ≠ getPath B (base ++ [key])
            rw [hAk, hBk, hpair, hn]
            intro hEq
            have hxy : xs = ys := by
              have h1 := Option.some.inj hEq
              exact (Value.arr.injEq _ _).mp h1
            subst hxy
            have h2 := arrays_unchanged_iff.mpr (rfl : xs = xs)
            rw [h2] at hcond
            cases hcond
          · simp at hop
        · split at hop
          · rename_i hcond
            simp at hop
            subst hop
            show getPath A (base ++ [key]) ≠ getPath B (base ++ [key])
            rw [hAk, hBk, hn]
            cases hl : lookupF (objFields prev) key with
            | none => simp
            | some pv =>
                rw [hl] at hcond
                simp [jsonStrNe] at hcond
                simp [hcond]
          · simp at hop

/-- `deepDiffOps` never emits an op at a path where the two objects hold
identical values (or are both absent). -/
theorem deepDiffOps_minimal (A B : Value) :
    ∀ op ∈ deepDiffOps A B [], getPath A op.path ≠ getPath B op.path :=
  fun op hop => ddF_minimal _ A B [] A B rfl rfl op hop

/-! ### Lemmas about `diffObjects` (part_000) and the spread merge -/

theorem diffF_self : ∀ (f : Nat) (v : Value), diffObjectsF f v v = [] := by
  intro f
  induction f with
  | zero => intro v; rfl
  | succ f ih =>
      intro v
      simp only [diffObjectsF]
      rw [List.flatMap_eq_nil_iff]
      intro key _
      simp only [diffKey]
      split
      · rename_i nfs heq
        rw [heq]
        have hfalse : jsFalsy (Value.obj nfs) = false := by simp [jsFalsy]
        simp only [jsOrEmptyObj, orEmptyObj, hfalse, Bool.false_eq_true, if_false, ih]
        simp
      · rename_i nys heq
        rw [heq]
        have hfalse : jsFalsy (Value.arr nys) = false := by simp [jsFalsy]
        simp only [jsOrEmptyObj, orEmptyObj, hfalse, Bool.false_eq_true, if_false, ih]
        simp
      · rename_i nv _ _ heq
        rw [heq]
        simp
      · rfl

/-- `diffObjects` reports nothing between a value and itself. -/
theorem diffObjects_self (v : Value) : diffObjects v v = [] := diffF_self _ v

theorem diffF_obj_agree : ∀ (f : Nat) (old : Value) (mfs : List (String × Value)),
    (∀ key nv, lookupF mfs key = some nv → jsIndex old key = some nv) →
    diffObjectsF f old (.obj mfs) = [] := by
  intro f
  cases f with
  | zero => intro old mfs _; rfl
  | succ f =>
      intro old mfs hagree
      simp only [diffObjectsF]
      rw [List.flatMap_eq_nil_iff]
      intro key _
      simp only [diffKey]
      split
      · rename_i nfs heq
        have h1 : jsIndex old key = some (.obj nfs) := hagree key _ (by simpa [jsIndex] using heq)
        rw [h1]
        have hfalse : jsFalsy (Value.obj nfs) = false := by simp [jsFalsy]
        simp only [jsOrEmptyObj, orEmptyObj, hfalse, Bool.false_eq_true, if_false, diffF_self]
        simp
      · rename_i nys heq
        have h1 : jsIndex old key = some (.arr nys) := hagree key _ (by simpa [jsIndex] using heq)
        rw [h1]
        have hfalse : jsFalsy (Value.arr nys) = false := by simp [jsFalsy]
        simp only [jsOrEmptyObj, orEmptyObj, hfalse, Bool.false_eq_true, if_false, diffF_self]
        simp
      · rename_i nv _ _ heq
        have h1 : jsIndex old key = some nv := hagree key _ (by simpa [jsIndex] using heq)
        rw [h1]
        simp
      · rfl

theorem lookupF_map_keys (a : List (String × Value)) (h : String → Value → Value) (k : String) :
    lookupF (a.map (fun kv => (kv.1, h kv.1 kv.2))) k = (lookupF a k).map (h k) := by
  induction a with
  | nil => rfl
  | cons kv a ih =>
      obtain ⟨k1, v1⟩ := kv
      by_cases hk : k1 = k
      · subst hk
        simp [lookupF]
      · simp [lookupF, hk, ih]

theorem lookupF_append (l1 l2 : List (String × Value)) (k : String) :
    lookupF (l1 ++ l2) k
      = match lookupF l1 k with
        | some v => some v
        | none => lookupF l2 k := by
  induction l1 with
  | nil => rfl
  | cons kv l1 ih =>
      obtain ⟨k1, v1⟩ := kv
      by_cases hk : k1 = k
      · subst hk
        simp [lookupF]
      · simp [lookupF, hk, ih]

theorem lookupF_filter_keyPred (b : List (String × Value)) (p : String → Bool) (k : String) :
    lookupF (b.filter (fun kv => p kv.1)) k = if p k then lookupF b k else none := by
  induction b with
  | nil => simp [lookupF]
  | cons kv b ih =>
      obtain ⟨k1, v1⟩ := kv
      by_cases hp : p k1
      · rw [List.filter_cons_of_pos (by simpa using hp)]
        by_cases hk : k1 = k
        · subst hk
          simp [lookupF, hp]
        · simp [lookupF, hk, ih]
      · rw [List.filter_cons_of_neg (by simpa using hp)]
        by_cases hk : k1 = k
        · subst hk
          simp [lookupF, hp, ih]
        · simp [lookupF, hk, ih]

theorem lookupF_mergeFields (a b : List (String × Value)) (k : String) :
    lookupF (mergeFields a b) k
      = match lookupF b k with
        | some v => some v
        | none => lookupF a k := by
  simp only [mergeFields]
  rw [lookupF_append]
  have hmap := lookupF_map_keys a (fun key v => (lookupF b key).getD v) k
  rw [hmap]
  have hfil := lookupF_filter_keyPred b (fun key => (lookupF a key).isNone) k
  rw [hfil]
  cases ha : lookupF a k with
  | none =>
      simp only [Option.map_none', Option.isNone_none, if_pos rfl]
      cases hb : lookupF b k <;> simp
  | some v =>
      simp only [Option.map_some', Option.isNone_some, Bool.false_eq_true, if_false]
      cases hb : lookupF b k <;> simp

/-- After shallow-merging an object payload into any stored value, `diffObjects`
of the merge result against the same payload is empty. -/
theorem diffObjects_after_merge (s : Value) (mfs : List (String × Value)) :
    diffObjects (spreadMerge s (.obj mfs)) (.obj mfs) = [] := by
  apply diffF_obj_agree
  intro key nv h
  show lookupF (mergeFields (spreadFields s) (spreadFields (.obj mfs))) key = some nv
  rw [lookupF_mergeFields]
  show (match lookupF mfs key with
    | some v => some v
    | none => lookupF (spreadFields s) key) = some nv
  rw [h]

/-! ### Coalescer lemmas (part_000 / part_001) -/

theorem lookupP_eq_none_iff {ps : Pending} {key : String} :
    lookupP ps key = none ↔ key ∉ ps.map Prod.fst := by
  induction ps with
  | nil => simp [lookupP]
  | cons kv ps ih =>
      obtain ⟨k, q⟩ := kv
      by_cases hk : k = key
      · subst hk
        simp [lookupP]
      · have hk2 : ¬ key = k := fun h => hk h.symm
        simp [lookupP, hk, hk2, List.mem_cons] at ih ⊢
        exact ih

theorem lookupP_setP (ps : Pending) (key : String) (q : List PUpd) (t : String) :
    lookupP (setP ps key q) t = if key = t then some q else lookupP ps t := by
  induction ps with
  | nil => by_cases h : key = t <;> simp [setP, lookupP, h]
  | cons kv ps ih =>
      obtain ⟨k, q0⟩ := kv
      by_cases hk : k = key
      · subst hk
        by_cases h2 : k = t <;> simp [setP, lookupP, h2]
      · by_cases h2 : k = t
        · subst h2
          have hkey : ¬ key = k := fun h => hk h.symm
          simp [setP, lookupP, hk, hkey]
        · simp [setP, lookupP, hk, h2, ih]

theorem lookupP_append_single (ps : Pending) (u : String) (q : List PUpd) (t : String)
    (hu : lookupP ps u = none) :
    lookupP (ps ++ [(u, q)]) t = if u = t then some q else lookupP ps t := by
  induction ps with
  | nil => by_cases h : u = t <;> simp [lookupP, h]
  | cons kv ps ih =>
      obtain ⟨k, q0⟩ := kv
      have hk : ¬ k = u := by
        intro h
        rw [h] at hu
        simp [lookupP] at hu
      by_cases h2 : k = t
      · subst h2
        have hut : ¬ u = k := fun h => hk h.symm
        simp [lookupP, hut]
      · have htail : lookupP ps u = none := by
          simpa [lookupP, hk] using hu
        simp [lookupP, h2, ih htail]

theorem lookupP_schedule (ps : Pending) (u : String) (x : PUpd) (t : String) :
    lookupP (scheduleUpdate ps u x) t
      = if u = t then some ((lookupP ps u).getD [] ++ [x]) else lookupP ps t := by
  simp only [scheduleUpdate]
  cases hu : lookupP ps u with
  | none =>
      show lookupP (ps ++ [(u, [x])]) t = _
      rw [lookupP_append_single ps u [x] t hu]
      simp
  | some q =>
      show lookupP (setP ps u (q ++ [x])) t = _
      rw [lookupP_setP]
      by_cases h : u = t <;> simp [h]

theorem setP_keys (ps : Pending) (u : String) (q : List PUpd)
    (hu : u ∈ ps.map Prod.fst) :
    (setP ps u q).map Prod.fst = ps.map Prod.fst := by
  induction ps with
  | nil => simp at hu
  | cons kv ps ih =>
      obtain ⟨k, q0⟩ := kv
      by_cases hk : k = u
      · subst hk
        simp [setP]
      · have hmem : u ∈ ps.map Prod.fst := by
          have : ¬ u = k := fun h => hk h.symm
          simpa [this] using hu
        simp [setP, hk, ih hmem]

theorem schedule_keys (ps : Pending) (u : String) (x : PUpd) :
    (scheduleUpdate ps u x).map Prod.fst
      = if u ∈ ps.map Prod.fst then ps.map Prod.fst else ps.map Prod.fst ++ [u] := by
  simp only [scheduleUpdate]
  cases hu : lookupP ps u with
  | none =>
      rw [if_neg (lookupP_eq_none_iff.mp hu)]
      show (ps ++ [(u, [x])]).map Prod.fst = _
      simp
  | some q =>
      have hmem : u ∈ ps.map Prod.fst := by
        by_contra hm
        rw [lookupP_eq_none_iff.mpr hm] at hu
        cases hu
      rw [if_pos hmem]
      show (setP ps u (q ++ [x])).map Prod.fst = _
      exact setP_keys ps u _ hmem

theorem schedule_keys_nodup (ps : Pending) (u : String) (x : PUpd)
    (h : (ps.map Prod.fst).Nodup) :
    ((scheduleUpdate ps u x).map Prod.fst).Nodup := by
  rw [schedule_keys]
  by_cases hm : u ∈ ps.map Prod.fst
  · rw [if_pos hm]
    exact h
  · rw [if_neg hm]
    simp [List.nodup_append, h, hm]

theorem fold_keys_nodup (cs : List (String × PUpd)) : ∀ (P : Pending),
    (P.map Prod.fst).Nodup →
    (((cs.foldl (fun p c => scheduleUpdate p c.1 c.2) P)).map Prod.fst).Nodup := by
  induction cs with
  | nil => exact fun P h => h
  | cons c cs ih =>
      intro P h
      exact ih _ (schedule_keys_nodup P c.1 c.2 h)

theorem schedule_fold (cs : List (String × PUpd)) : ∀ (P : Pending) (t : String),
    lookupP (cs.foldl (fun p c => scheduleUpdate p c.1 c.2) P) t
      = match lookupP P t with
        | none =>
            if cs.filter (fun c => c.1 == t) = [] then none
            else some ((cs.filter (fun c => c.1 == t)).map Prod.snd)
        | some q => some (q ++ (cs.filter (fun c => c.1 == t)).map Prod.snd) := by
  induction cs with
  | nil =>
      intro P t
      cases hP : lookupP P t <;> simp [hP]
  | cons c cs ih =>
      intro P t
      obtain ⟨u, x⟩ := c
      rw [List.foldl_cons, ih]
      rw [lookupP_schedule]
      by_cases hu : u = t
      · subst hu
        rw [if_pos rfl]
        rw [List.filter_cons_of_pos (by simp)]
        cases hP : lookupP P u with
        | none => simp
        | some q => simp
      · rw [if_neg hu]
        rw [List.filter_cons_of_neg (by simpa using hu)]

theorem flushEmits_key (P : Pending) (t : String) (hnd : (P.map Prod.fst).Nodup) :
    (flushTick P).1.filter (fun e => e.1 == t)
      = match lookupP P t with
        | some q => if q.isEmpty then [] else [(t, q)]
        | none => [] := by
  induction P with
  | nil => rfl
  | cons kv P ih =>
      obtain ⟨k, q⟩ := kv
      have hnd2 : (P.map Prod.fst).Nodup := (List.nodup_cons.mp (by simpa using hnd)).2
      have hknot : k ∉ P.map Prod.fst := (List.nodup_cons.mp (by simpa using hnd)).1
      by_cases hk : k = t
      · subst hk
        have hPt : lookupP P k = none := lookupP_eq_none_iff.mpr hknot
        have ihv := ih hnd2
        rw [hPt] at ihv
        simp only [flushTick, lookupP, if_pos rfl] at ihv ⊢
        by_cases hq : q.isEmpty
        · rw [List.filter_cons_of_neg (by simpa using hq)]
          simp [hq, ihv]
        · rw [List.filter_cons_of_pos (by simpa using hq)]
          rw [List.filter_cons_of_pos (by simp)]
          simp [hq, ihv]
      · have ihv := ih hnd2
        simp only [flushTick, lookupP] at ihv ⊢
        rw [if_neg hk]
        by_cases hq : q.isEmpty
        · rw [List.filter_cons_of_neg (by simpa using hq)]
          exact ihv
        · rw [List.filter_cons_of_pos (by simpa using hq)]
          rw [List.filter_cons_of_neg (by simpa using hk)]
          exact ihv

theorem lookupP_flushState (P : Pending) (t : String) :
    lookupP (flushTick P).2 t = (lookupP P t).map (fun _ => ([] : List PUpd)) := by
  simp only [flushTick]
  induction P with
  | nil => rfl
  | cons kv P ih =>
      obtain ⟨k, q⟩ := kv
      by_cases hk : k = t
      · subst hk
        simp [lookupP]
      · simp [lookupP, hk, ih]

/-! ### Store lemmas -/

theorem lookupD_setD (st : Store) (key : String) (d : Doc) : ∀ (t : String),
    lookupD (setD st key d) t = if key = t then some d else lookupD st t := by
  induction st with
  | nil =>
      intro t
      simp only [setD, lookupD]
  | cons kv st ih =>
      intro t
      obtain ⟨k, d0⟩ := kv
      by_cases hk : k = key
      · subst hk
        simp only [setD, if_pos rfl, lookupD]
        by_cases ht : k = t
        · simp [ht]
        · simp [ht]
      · simp only [setD, if_neg hk, lookupD]
        by_cases ht : k = t
        · subst ht
          have : ¬ key = k := fun h => hk h.symm
          simp [this]
        · simp only [if_neg ht, ih t]

/-! ### Array-zip lemmas for the sequence delta detector -/

theorem zip_append_left {α : Type} (xs tail : List α) :
    xs.zip (xs ++ tail) = xs.zip xs := by
  induction xs with
  | nil => rfl
  | cons x xs ih => simp [List.zip_cons_cons, ih]

theorem zip_self_all_eq (xs : List Value) :
    (xs.zip xs).all (fun q => q.1 == q.2) = true := by
  rw [zip_self_eq]
  simp

theorem zip_mem_of_index {xs ys : List Value} {i : Nat} {v w : Value}
    (h1 : xs[i]? = some v) (h2 : ys[i]? = some w) : (v, w) ∈ xs.zip ys := by
  have hz : (xs.zip ys)[i]? = some (v, w) := by
    rw [List.getElem?_zip_eq_some]
    exact ⟨h1, h2⟩
  exact List.getElem?_mem hz

theorem zip_all_eq_false_of_mismatch {xs ys : List Value} {i : Nat} {v w : Value}
    (h1 : xs[i]? = some v) (h2 : ys[i]? = some w) (hne : v ≠ w) :
    (xs.zip ys).all (fun q => q.1 == q.2) = false := by
  cases hb : (xs.zip ys).all (fun q => q.1 == q.2) with
  | false => rfl
  | true =>
      exfalso
      have hvw := List.all_eq_true.mp hb (v, w) (zip_mem_of_index h1 h2)
      exact hne (by simpa using hvw)

/-! ### Score-patch lemmas -/

theorem flatMap_if_singleton {α β : Type} (l : List α) (p : α → Bool) (g : α → β) :
    (l.flatMap (fun a => if p a then [g a] else [])) = (l.filter p).map g := by
  induction l with
  | nil => rfl
  | cons x l ih =>
      by_cases hx : p x
      · simp [List.flatMap_cons, hx, ih, List.filter_cons]
      · simp [List.flatMap_cons, hx, ih, List.filter_cons]

theorem lookupF_mem {fs : List (String × Value)} {k : String} {v : Value}
    (h : lookupF fs k = some v) : (k, v) ∈ fs := by
  induction fs with
  | nil => exact absurd h (by simp [lookupF])
  | cons kv fs ih =>
      obtain ⟨k0, v0⟩ := kv
      by_cases hk : k0 = k
      · subst hk
        rw [lookupF, if_pos rfl] at h
        cases h
        exact List.mem_cons_self _ _
      · simp only [lookupF, if_neg hk] at h
        exact List.mem_cons_of_mem _ (ih h)

theorem mem_keysOf_of_lookup {fs : List (String × Value)} {k : String} {v : Value}
    (h : lookupF fs k = some v) : k ∈ keysOf fs :=
  List.mem_map.mpr ⟨(k, v), lookupF_mem h, rfl⟩

theorem strictNe_of_scalar {a b : Option Value}
    (ha : ∀ v, a = some v → isScalar v = true) (hb : ∀ v, b = some v → isScalar v = true) :
    strictNe a b = decide (a ≠ b) := by
  cases a with
  | none =>
      cases b with
      | none => rfl
      | some w => simp [strictNe]
  | some v =>
      cases b with
      | none => simp [strictNe]
      | some w =>
          have hv := ha v rfl
          have hw := hb w rfl
          by_cases hvw : v = w
          · subst hvw
            simp [strictNe, hv, hw]
          · simp [strictNe, hv, hw, hvw, bne_iff_ne, Ne, Option.some.injEq]

theorem scorePatchOf_scalar (psfs sfs : List (String × Value))
    (hp : ∀ kv ∈ psfs, isScalar kv.2 = true) (hs : ∀ kv ∈ sfs, isScalar kv.2 = true) :
    scorePatchOf (.obj psfs) (.obj sfs)
      = (((keysOf psfs ++ keysOf sfs).dedup).filter
          (fun k => decide (lookupF sfs k ≠ lookupF psfs k))).map
          (fun k => (k, lookupF sfs k)) := by
  simp only [scorePatchOf, jsKeys, jsIndex]
  rw [← flatMap_if_singleton]
  apply List.flatMap_congr
  intro k hk
  have hne : strictNe (lookupF sfs k) (lookupF psfs k)
      = decide (lookupF sfs k ≠ lookupF psfs k) :=
    strictNe_of_scalar
      (fun v hv => hs (k, v) (lookupF_mem hv))
      (fun v hv => hp (k, v) (lookupF_mem hv))
  rw [hne]

theorem scorePatch_keys_exact (psfs sfs : List (String × Value))
    (hp : ∀ kv ∈ psfs, isScalar kv.2 = true) (hs : ∀ kv ∈ sfs, isScalar kv.2 = true)
    (k : String) :
    (∃ v, (k, v) ∈ scorePatchOf (.obj psfs) (.obj sfs))
      ↔ lookupF sfs k ≠ lookupF psfs k := by
  rw [scorePatchOf_scalar psfs sfs hp hs]
  constructor
  · rintro ⟨v, hv⟩
    obtain ⟨k2, hk2, heq⟩ := List.mem_map.mp hv
    have hk2f := List.mem_filter.mp hk2
    have : k2 = k := congrArg Prod.fst heq
    subst this
    simpa using hk2f.2
  · intro hne
    refine ⟨lookupF sfs k, List.mem_map.mpr ⟨k, ?_, rfl⟩⟩
    refine List.mem_filter.mpr ⟨List.mem_dedup.mpr ?_, by simpa using hne⟩
    rcases hcs : lookupF sfs k with _ | v
    · rcases hcp : lookupF psfs k with _ | w
      · exact absurd (hcs.trans hcp.symm) hne
      · exact List.mem_append.mpr (Or.inl (mem_keysOf_of_lookup hcp))
    · exact List.mem_append.mpr (Or.inr (mem_keysOf_of_lookup hcs))

theorem scorePatch_self_scalar (sfs : List (String × Value))
    (hs : ∀ kv ∈ sfs, isScalar kv.2 = true) :
    scorePatchOf (.obj sfs) (.obj sfs) = [] := by
  rw [scorePatchOf_scalar sfs sfs hs hs]
  have hfe : (((keysOf sfs ++ keysOf sfs).dedup).filter
      (fun k => decide (lookupF sfs k ≠ lookupF sfs k))) = [] := by
    apply List.filter_eq_nil_iff.mpr
    intro k hk
    simp
  rw [hfe]
  rfl

/-! ### Tombstone characterization for `deepDiffOps` -/

theorem ddKeyDiff_tombstone_arm {rec : Value → Value → List String → List Op}
    {prev next : Value} {base : List String} {key : String}
    (hshape : ∀ P N b op, op ∈ rec P N b → ∃ k2 rest, op.path = b ++ k2 :: rest)
    (h : Op.mk (base ++ [key]) none ∈ ddKeyDiff rec prev next base key) :
    lookupF (objFields next) key = none := by
  simp only [ddKeyDiff] at h
  split at h
  · assumption
  · rename_i nv hn
    exfalso
    split at h
    · obtain ⟨k2, rest, hrest⟩ := hshape _ _ _ _ h
      have hlen := congrArg List.length hrest
      simp at hlen
    · split at h
      · simp at h
      · simp at h
    · split at h
      · simp at h
      · simp at h

theorem ddF_tombstone_mem (f : Nat) (fs gs : List (String × Value))
    (base : List String) (k : String)
    (hkf : k ∈ keysOf fs) (hgn : lookupF gs k = none) :
    Op.mk (base ++ [k]) none ∈ deepDiffOpsF (f+1) (.obj fs) (.obj gs) base := by
  simp only [deepDiffOpsF, List.mem_flatMap]
  refine ⟨k, List.mem_dedup.mpr (List.mem_append.mpr (Or.inl hkf)), ?_⟩
  simp only [ddKeyDiff]
  split
  · simp
  · rename_i nv hn
    simp only [objFields] at hn
    rw [hgn] at hn
    exact absurd hn (by simp)

theorem ddF_null_replace_mem (f : Nat) (fs gs : List (String × Value))
    (base : List String) (k : String)
    (hg : lookupF gs k = some .null) (hf : lookupF fs k ≠ some .null) :
    Op.mk (base ++ [k]) (some .null) ∈ deepDiffOpsF (f+1) (.obj fs) (.obj gs) base := by
  simp only [deepDiffOpsF, List.mem_flatMap]
  refine ⟨k, List.mem_dedup.mpr (List.mem_append.mpr
    (Or.inr (mem_keysOf_of_lookup hg))), ?_⟩
  simp only [ddKeyDiff]
  split
  · rename_i hn
    simp only [objFields] at hn
    rw [hg] at hn
    exact absurd hn (by simp)
  · rename_i nv hn
    simp only [objFields] at hn
    rw [hg] at hn
    have hnv : nv = .null := (Option.some.inj hn).symm
    subst hnv
    split
    · rename_i pfs nfs hpair
      exact absurd hpair (by simp)
    · rename_i xs ys hpair
      exact absurd hpair (by simp)
    · simp only [objFields]
      have hcond : jsonStrNe (lookupF fs k) Value.null = true := by
        cases hlf : lookupF fs k with
        | none => rfl
        | some pv =>
            have hne : pv ≠ Value.null := fun hc => hf (by rw [hlf, hc])
            simp [jsonStrNe, bne_iff_ne, hne]
      rw [if_pos hcond]
      simp

theorem ddF_no_tombstone_when_present (f : Nat) (fs gs : List (String × Value))
    (base : List String) (k : String) (v : Value)
    (hv : lookupF gs k = some v) :
    Op.mk (base ++ [k]) none ∉ deepDiffOpsF (f+1) (.obj fs) (.obj gs) base := by
  intro hmem
  simp only [deepDiffOpsF, List.mem_flatMap] at hmem
  obtain ⟨key, hkey, hgrp⟩ := hmem
  by_cases hk : key = k
  · subst hk
    have harm := ddKeyDiff_tombstone_arm
      (fun P N b op hop => ddF_path_shape f P N b op hop) hgrp
    simp only [objFields] at harm
    rw [hv] at harm
    exact absurd harm (by simp)
  · rcases ddKeyDiff_mem hgrp with ⟨val, heq⟩ | ⟨pfs, nfs, hp, hn, hrec⟩
    · have hpath : base ++ [k] = base ++ [key] := congrArg Op.path heq
      simp at hpath
      exact hk hpath.symm
    · obtain ⟨k2, rest, hrest⟩ := ddF_path_shape f _ _ _ _ hrec
      have hlen := congrArg List.length hrest
      simp at hlen

/-! ### Claim C1 -/

/-- C1 (counterexample): the claim fails for both differs as stated. For
`A = {a: 1}`, `B = {}`, `diffObjects` of `part_000` returns the empty changes
object, so applying its patch leaves `A` unchanged, yet `A` is not structurally
equal to `B`. And for `A = {x: [{a:1, b:2}]}`, `B = {x: [{b:2, a:1}]}`,
`deepDiffOps` of `index.js` emits a replace op at path `x` (its array element
comparison uses key-order-sensitive `JSON.stringify`), although `A` and `B`
agree (are structurally equal) at `x`. -/
theorem claim1_counterexample :
    diffObjects (.obj [("a", .num 1)]) (.obj []) = [] ∧
    vequivB (.obj [("a", .num 1)]) (.obj []) = false ∧
    deepDiffOps (.obj [("x", .arr [.obj [("a", .num 1), ("b", .num 2)]])])
        (.obj [("x", .arr [.obj [("b", .num 2), ("a", .num 1)]])]) []
      = [⟨["x"], some (.arr [.obj [("b", .num 2), ("a", .num 1)]])⟩] ∧
    vequivB (.arr [.obj [("a", .num 1), ("b", .num 2)]])
        (.arr [.obj [("b", .num 2), ("a", .num 1)]]) = true := by
  decide

/-- C1 (amended): for all object field lists `fs`, `gs`, applying the patch
produced by `deepDiffOps` of `index.js` to `A = obj fs` yields a value
structurally equivalent (order-insensitive) to `B = obj gs`, and the patch
contains no operation at any path where `A` and `B` hold JSON-identical values
(or are both absent). `diffObjects` of `part_000` does not satisfy the
reconstruction property (see the counterexample), and `deepDiffOps` compares
array elements by key-order-sensitive serialization, so minimality holds for
JSON-identical agreement, not order-insensitive structural agreement. -/
theorem claim1_amended (fs gs : List (String × Value)) :
    vequivB (applyOps (.obj fs) (deepDiffOps (.obj fs) (.obj gs) [])) (.obj gs) = true ∧
    ∀ op ∈ deepDiffOps (.obj fs) (.obj gs) [],
      getPath (.obj fs) op.path ≠ getPath (.obj gs) op.path :=
  ⟨deepDiffOps_reconstructs fs gs, deepDiffOps_minimal (.obj fs) (.obj gs)⟩

theorem claim1_amended_witness :
    vequivB (applyOps (.obj [("a", .num 1)])
        (deepDiffOps (.obj [("a", .num 1)]) (.obj [("b", .num 2)]) []))
      (.obj [("b", .num 2)]) = true ∧
    getPath (.obj [("a", .num 1)]) ["a"] ≠ getPath (.obj [("b", .num 2)]) ["a"] := by
  refine ⟨(claim1_amended [("a", .num 1)] [("b", .num 2)]).1, ?_⟩
  exact (claim1_amended [("a", .num 1)] [("b", .num 2)]).2 ⟨["a"], none⟩ (by decide)

/-! ### Claim C6 -/

/-- C6 (counterexample): `diffObjects` of `part_000` iterates only the new
object's keys, so a key present in the old mapping but absent from the new one
produces no operation at all — no tombstone is emitted. (`deepDiffOps` of
`index.js` does emit the tombstone for the same input.) -/
theorem claim6_counterexample :
    diffObjects (.obj [("gone", .num 7)]) (.obj []) = [] ∧
    deepDiffOps (.obj [("gone", .num 7)]) (.obj []) [] = [⟨["gone"], none⟩] := by
  decide

/-- C6 (amended): in `deepDiffOps` of `index.js` (but not in `diffObjects` of
`part_000`, see the counterexample): every key present in the old object but
absent from the new one yields a tombstone operation (`value = none`,
modelling `undefined`) at that key's path; a key explicitly present in the new
object with value `null` yields a replace operation carrying `null` whenever
the old value differs, and never a tombstone — `null`, absent, and `undefined`
are kept distinct. -/
theorem claim6_amended (fs gs : List (String × Value)) (base : List String) (k : String) :
    (k ∈ keysOf fs → lookupF gs k = none →
      Op.mk (base ++ [k]) none ∈ deepDiffOps (.obj fs) (.obj gs) base) ∧
    (lookupF gs k = some .null → lookupF fs k ≠ some .null →
      Op.mk (base ++ [k]) (some .null) ∈ deepDiffOps (.obj fs) (.obj gs) base) ∧
    (∀ v, lookupF gs k = some v →
      Op.mk (base ++ [k]) none ∉ deepDiffOps (.obj fs) (.obj gs) base) := by
  refine ⟨?_, ?_, ?_⟩
  · intro h1 h2
    exact ddF_tombstone_mem (Value.vsizeFields gs) fs gs base k h1 h2
  · intro h1 h2
    exact ddF_null_replace_mem (Value.vsizeFields gs) fs gs base k h1 h2
  · intro v h1
    exact ddF_no_tombstone_when_present (Value.vsizeFields gs) fs gs base k v h1

theorem claim6_amended_witness :
    Op.mk ["a"] none ∈ deepDiffOps (.obj [("a", .num 1)]) (.obj [("b", .null)]) [] ∧
    Op.mk ["b"] (some .null) ∈ deepDiffOps (.obj [("a", .num 1)]) (.obj [("b", .null)]) [] ∧
    Op.mk ["b"] none ∉ deepDiffOps (.obj [("a", .num 1)]) (.obj [("b", .null)]) [] := by
  refine ⟨?_, ?_, ?_⟩
  · exact (claim6_amended [("a", .num 1)] [("b", .null)] [] "a").1 (by decide) (by decide)
  · exact (claim6_amended [("a", .num 1)] [("b", .null)] [] "b").2.1 (by decide) (by decide)
  · exact (claim6_amended [("a", .num 1)] [("b", .null)] [] "b").2.2 .null (by decide)

/-! ### Claim C4 -/

/-- C4: starting from a pending map whose queue for tenant `t` is empty or
absent (the state right after a flush, or before any enqueue), fold any list
of `scheduleUpdate` calls over it. At the next flush tick, `t` receives
exactly one bulk message carrying precisely its enqueued entries in order when
there is at least one, and zero messages when there are none; afterwards `t`'s
pending queue is again empty or absent. -/
theorem claim4_batching (P0 : Pending) (cs : List (String × PUpd)) (t : String)
    (hnd : (P0.map Prod.fst).Nodup)
    (h0 : lookupP P0 t = none ∨ lookupP P0 t = some []) :
    ((flushTick (cs.foldl (fun p c => scheduleUpdate p c.1 c.2) P0)).1.filter
        (fun e => e.1 == t)
      = if (cs.filter (fun c => c.1 == t)).map Prod.snd = []
        then [] else [(t, (cs.filter (fun c => c.1 == t)).map Prod.snd)]) ∧
    (lookupP (flushTick (cs.foldl (fun p c => scheduleUpdate p c.1 c.2) P0)).2 t = none ∨
      lookupP (flushTick (cs.foldl (fun p c => scheduleUpdate p c.1 c.2) P0)).2 t
        = some []) := by
  have hnd1 := fold_keys_nodup cs P0 hnd
  have hfold := schedule_fold cs P0 t
  constructor
  · rw [flushEmits_key _ t hnd1, hfold]
    rcases h0 with h0 | h0
    · rw [h0]
      by_cases hf : cs.filter (fun c => c.1 == t) = []
      · rw [if_pos hf]
        simp [hf]
      · rw [if_neg hf]
        have hm : ¬ (cs.filter (fun c => c.1 == t)).map Prod.snd = [] :=
          fun hc => hf (List.map_eq_nil_iff.mp hc)
        simp [hm, List.isEmpty_iff]
    · rw [h0]
      by_cases hm : (cs.filter (fun c => c.1 == t)).map Prod.snd = []
      · simp [hm]
      · simp [hm, List.isEmpty_iff]
  · rw [lookupP_flushState, hfold]
    rcases h0 with h0 | h0 <;> rw [h0]
    · by_cases hf : cs.filter (fun c => c.1 == t) = [] <;> simp [hf]
    · simp

theorem claim4_witness :
    (flushTick (List.foldl (fun p c => scheduleUpdate p c.1 c.2) ([] : Pending)
        [("default", (⟨"update", .num 1⟩ : PUpd)), ("other", ⟨"wagon", .null⟩),
          ("default", ⟨"update", .num 2⟩)])).1.filter (fun e => e.1 == "default")
      = [("default", [⟨"update", .num 1⟩, ⟨"update", .num 2⟩])] ∧
    lookupP (flushTick (List.foldl (fun p c => scheduleUpdate p c.1 c.2) ([] : Pending)
        [("default", (⟨"update", .num 1⟩ : PUpd)), ("other", ⟨"wagon", .null⟩),
          ("default", ⟨"update", .num 2⟩)])).2 "default" = some [] := by
  have h := claim4_batching [] [("default", ⟨"update", .num 1⟩), ("other", ⟨"wagon", .null⟩),
    ("default", ⟨"update", .num 2⟩)] "default" (by decide) (Or.inl rfl)
  constructor
  · have h1 := h.1
    simpa using h1
  · rcases h.2 with h2 | h2
    · exact absurd h2 (by decide)
    · exact h2

/-! ### Claim C2 -/

/-- The emissions of `publish-wagon` of `index.js` for an array payload, as a
function of the stored and new arrays. -/
theorem publishWagonIx_emits (st : Store) (now : Nat) (u : Option Value) (prev : Doc)
    (xs ys : List Value) (hst : lookupD st (keyFor u) = some prev)
    (hw : prev.wagonData = .arr xs) :
    (publishWagonIx st now u (some (.arr ys))).2
      = if ((decide (ys.length ≥ xs.length) && (xs.zip ys).all (fun q => q.1 == q.2))
              && decide (ys.length > xs.length) : Bool)
        then [Emit.wagonAppend (keyFor u) (ys.drop xs.length) xs.length]
        else [Emit.wagonUpdate (keyFor u) ys] := by
  simp only [publishWagonIx, hst, Option.getD_some, hw]

/-- C2 (counterexample): the claim fails at `k = 0` and for `part_000`. With
stored sequence `[1]`, publishing the identical sequence (zero elements
appended) makes `index.js` emit a full `wagon-update`, not an append-only
delta with `startIndex = 1` and an empty tail; and `part_000` never emits an
append delta: publishing `[1, 2]` (one element appended) enqueues a `"wagon"`
descriptor carrying the entire new sequence. -/
theorem claim2_counterexample :
    (publishWagonIx [("default", ⟨.obj [], .obj [], .arr [.num 1], some 0⟩)] 1 none
        (some (.arr [.num 1]))).2 = [Emit.wagonUpdate "default" [.num 1]] ∧
    (publishWagonP0 [("default", ⟨.obj [], .obj [], .arr [.num 1], some 0⟩)] [] 1 none
        (some (.arr [.num 1, .num 2]))).2
      = [("default", [⟨"wagon", .obj [("wagonData", .arr [.num 1, .num 2])]⟩])] := by
  decide

/-- C2 (amended): in `index.js`, with stored sequence `xs`: appending `k ≥ 1`
elements emits exactly `wagon-append` with the appended tail and
`startIndex = len(xs)`; appending `k = 0` elements (an identical sequence)
emits a full `wagon-update`; and any same-length sequence that mutates an
existing element emits a full `wagon-update`. In `part_000`, even a strict
append enqueues one `"wagon"` descriptor carrying the entire new sequence —
there is no append classification at all. -/
theorem claim2_amended (st : Store) (now : Nat) (u : Option Value) (prev : Doc)
    (xs : List Value) (hst : lookupD st (keyFor u) = some prev)
    (hw : prev.wagonData = .arr xs) :
    (∀ tail, tail ≠ [] →
      (publishWagonIx st now u (some (.arr (xs ++ tail)))).2
        = [Emit.wagonAppend (keyFor u) tail xs.length]) ∧
    ((publishWagonIx st now u (some (.arr xs))).2 = [Emit.wagonUpdate (keyFor u) xs]) ∧
    (∀ (ys : List Value) (i : Nat) (v w2 : Value),
      ys.length = xs.length → xs[i]? = some v → ys[i]? = some w2 → v ≠ w2 →
      (publishWagonIx st now u (some (.arr ys))).2 = [Emit.wagonUpdate (keyFor u) ys]) ∧
    (∀ (pending : Pending) (stP : Store) (now2 : Nat) (tail : List Value) (prev0 : Doc),
      tail ≠ [] → lookupD stP (keyFor u) = some prev0 → prev0.wagonData = .arr xs →
      (publishWagonP0 stP pending now2 u (some (.arr (xs ++ tail)))).2
        = scheduleUpdate pending (keyFor u)
            ⟨"wagon", .obj [("wagonData", .arr (xs ++ tail))]⟩) := by
  refine ⟨?_, ?_, ?_, ?_⟩
  · intro tail htail
    rw [publishWagonIx_emits st now u prev xs (xs ++ tail) hst hw]
    have hcond : ((decide ((xs ++ tail).length ≥ xs.length) &&
        (xs.zip (xs ++ tail)).all (fun q => q.1 == q.2)) &&
        decide ((xs ++ tail).length > xs.length) : Bool) = true := by
      rw [zip_append_left]
      have htl : 0 < tail.length := by
        cases tail with
        | nil => exact absurd rfl htail
        | cons a t => simp
      simp [zip_self_all_eq, List.length_append]
      omega
    rw [if_pos hcond, List.drop_left]
  · rw [publishWagonIx_emits st now u prev xs xs hst hw]
    have hcond : ((decide (xs.length ≥ xs.length) &&
        (xs.zip xs).all (fun q => q.1 == q.2)) &&
        decide (xs.length > xs.length) : Bool) = false := by
      simp
    rw [if_neg (by simp [hcond])]
  · intro ys i v w2 hlen h1 h2 hne
    rw [publishWagonIx_emits st now u prev xs ys hst hw]
    have hall : (xs.zip ys).all (fun q => q.1 == q.2) = false :=
      zip_all_eq_false_of_mismatch h1 h2 hne
    rw [if_neg (by simp [hall])]
  · intro pending stP now2 tail prev0 htail hst0 hw0
    have hne : ¬ (Value.arr (xs ++ tail) = prev0.wagonData) := by
      rw [hw0]
      intro hcontra
      have h2 : xs ++ tail = xs := Value.arr.inj hcontra
      have h3 : tail = [] :=
        List.append_cancel_left (h2.trans (List.append_nil xs).symm)
      exact htail h3
    simp only [publishWagonP0, hst0, Option.isNone_some, Bool.false_eq_true,
      if_false, Option.getD_some]
    rw [if_neg (by simp [jsFalsy])]
    rw [if_pos hne]

theorem claim2_amended_witness :
    (publishWagonIx [("default", ⟨.obj [], .obj [], .arr [.str "a"], some 0⟩)] 5 none
        (some (.arr [.str "a", .str "b"]))).2
      = [Emit.wagonAppend "default" [.str "b"] 1] ∧
    (publishWagonIx [("default", ⟨.obj [], .obj [], .arr [.str "a"], some 0⟩)] 5 none
        (some (.arr [.str "a"]))).2 = [Emit.wagonUpdate "default" [.str "a"]] ∧
    (publishWagonIx [("default", ⟨.obj [], .obj [], .arr [.str "a"], some 0⟩)] 5 none
        (some (.arr [.str "c"]))).2 = [Emit.wagonUpdate "default" [.str "c"]] ∧
    (publishWagonP0 [("default", ⟨.obj [], .obj [], .arr [.str "a"], some 0⟩)] [] 7 none
        (some (.arr [.str "a", .str "b"]))).2
      = scheduleUpdate [] "default"
          ⟨"wagon", .obj [("wagonData", .arr [.str "a", .str "b"])]⟩ := by
  have h := claim2_amended [("default", ⟨.obj [], .obj [], .arr [.str "a"], some 0⟩)] 5 none
    ⟨.obj [], .obj [], .arr [.str "a"], some 0⟩ [.str "a"] (by decide) rfl
  refine ⟨?_, ?_, ?_, ?_⟩
  · exact h.1 [.str "b"] (by decide)
  · exact h.2.1
  · exact h.2.2.1 [.str "c"] 0 (.str "a") (.str "c") (by decide) (by decide) (by decide)
      (by decide)
  · exact h.2.2.2 [] [("default", ⟨.obj [], .obj [], .arr [.str "a"], some 0⟩)] 7 [.str "b"]
      ⟨.obj [], .obj [], .arr [.str "a"], some 0⟩ (by decide) (by decide) rfl

/-! ### Claim C3 -/

theorem filterScoreOps_mem {ops : List Op} {op : Op} (h : op ∈ filterScoreOps ops) :
    pathStr op.path ≠ "matchData.score" ∧
      (pathStr op.path).startsWith "matchData.score." = false := by
  have h2 := List.mem_filter.mp h
  have hb := h2.2
  simp only [Bool.not_eq_true', Bool.or_eq_false_iff, beq_eq_false_iff_ne] at hb
  exact hb

/-- C3 (counterexample): the score-update payload is not exactly the changed
keys. Score entries are compared with `!==`; an object-valued entry is a
fresh deserialized reference, never strictly equal to the stored one, so
publishing a `matchData` identical to the stored one (score
`{home: {r: 1}}` unchanged) still emits a `score-update` naming `home`. -/
theorem claim3_counterexample :
    (publishUpdateIx
        [("default", ⟨.obj [("score", .obj [("home", .obj [("r", .num 1)])])], .obj [],
            .arr [], some 0⟩)]
        1 none (some (.obj [("score", .obj [("home", .obj [("r", .num 1)])])])) none).2
      = [Emit.scoreUpdate "default" [("home", some (.obj [("r", .num 1)]))]] := by
  decide

/-- C3 (amended): when the payload's `matchData.score` and the stored score are
objects with only scalar entries (numbers, strings, booleans, null) and at
least one entry differs, `index.js` emits `score-update` first, its payload
pairing exactly the keys whose values differ with their new values; and no
emitted `state-patch` of the same call contains an operation at
`matchData.score` or under `matchData.score.`. For object- or array-valued
score entries the `!==` comparison is reference inequality, so exactness
fails (see the counterexample). -/
theorem claim3_amended (st : Store) (now : Nat) (u ov : Option Value) (prev : Doc)
    (mfs sfs psfs : List (String × Value))
    (hst : lookupD st (keyFor u) = some prev)
    (hscore : lookupF mfs "score" = some (.obj sfs))
    (hprev : prevScoreOf prev.matchData = .obj psfs)
    (hp : ∀ kv ∈ psfs, isScalar kv.2 = true)
    (hs : ∀ kv ∈ sfs, isScalar kv.2 = true)
    (hchange : ∃ k0, lookupF sfs k0 ≠ lookupF psfs k0) :
    (∃ rest, (publishUpdateIx st now u (some (.obj mfs)) ov).2
        = Emit.scoreUpdate (keyFor u) (scorePatchOf (.obj psfs) (.obj sfs)) :: rest) ∧
    (∀ k, (∃ v, (k, v) ∈ scorePatchOf (.obj psfs) (.obj sfs))
        ↔ lookupF sfs k ≠ lookupF psfs k) ∧
    (∀ kv ∈ scorePatchOf (.obj psfs) (.obj sfs), kv.2 = lookupF sfs kv.1) ∧
    (∀ r ops, Emit.statePatch r ops ∈ (publishUpdateIx st now u (some (.obj mfs)) ov).2 →
      ∀ op ∈ ops, pathStr op.path ≠ "matchData.score" ∧
        (pathStr op.path).startsWith "matchData.score." = false) := by
  have hlen : (scorePatchOf (.obj psfs) (.obj sfs)).length > 0 := by
    obtain ⟨k0, hk0⟩ := hchange
    obtain ⟨v, hv⟩ := (scorePatch_keys_exact psfs sfs hp hs k0).mpr hk0
    cases hsp : scorePatchOf (.obj psfs) (.obj sfs) with
    | nil => rw [hsp] at hv; simp at hv
    | cons a l => simp
  have hemits : (publishUpdateIx st now u (some (.obj mfs)) ov).2
      = Emit.scoreUpdate (keyFor u) (scorePatchOf (.obj psfs) (.obj sfs)) ::
        (if (filterScoreOps
              ((deepDiffOps (orEmptyObj prev.matchData) (.obj mfs) ["matchData"]) ++
                (match ov with
                 | some (.obj ofs) =>
                     deepDiffOps (orEmptyObj prev.overlays) (.obj ofs) ["overlays"]
                 | _ => []))).length > 0
         then [Emit.statePatch (keyFor u)
            (filterScoreOps
              ((deepDiffOps (orEmptyObj prev.matchData) (.obj mfs) ["matchData"]) ++
                (match ov with
                 | some (.obj ofs) =>
                     deepDiffOps (orEmptyObj prev.overlays) (.obj ofs) ["overlays"]
                 | _ => [])))]
         else []) := by
    simp only [publishUpdateIx, hst, Option.getD_some, hscore, hprev]
    rw [if_pos hlen]
    rfl
  refine ⟨⟨_, hemits⟩, scorePatch_keys_exact psfs sfs hp hs,
    ?_, ?_⟩
  · intro kv hkv
    rw [scorePatchOf_scalar psfs sfs hp hs] at hkv
    obtain ⟨k2, _, heq⟩ := List.mem_map.mp hkv
    rw [← heq]
  · intro r ops hmem op hop
    rw [hemits] at hmem
    rcases List.mem_cons.mp hmem with heq | htail
    · exact absurd heq (by simp)
    · split at htail
      · have heq2 := List.mem_singleton.mp htail
        injection heq2 with h1 h2
        rw [h2] at hop
        exact filterScoreOps_mem hop
      · simp at htail

/-! ### Claim C5 -/

theorem jsFalsy_obj (fs : List (String × Value)) : jsFalsy (.obj fs) = false := rfl

theorem orEmptyObj_obj (fs : List (String × Value)) : orEmptyObj (.obj fs) = .obj fs := rfl

theorem spreadMerge_empty_obj (ofs : List (String × Value)) :
    spreadMerge (.obj []) (.obj ofs) = .obj ofs := by
  simp only [spreadMerge, spreadFields, mergeFields]
  simp [lookupF]

theorem prevScoreOf_obj (mfs sfs : List (String × Value))
    (h : lookupF mfs "score" = some (.obj sfs)) :
    prevScoreOf (.obj mfs) = .obj sfs := by
  simp only [prevScoreOf, jsFalsy_obj, Bool.false_eq_true, if_false]
  rw [show jsIndex (.obj mfs) "score" = lookupF mfs "score" from rfl, h]
  simp [jsFalsy]

theorem joinSt_lookup (st : Store) (key : String) (now : Nat) :
    ∃ d, lookupD
        (if (lookupD st key).isNone then setD st key (emptyDocP0 now) else st) key
      = some d := by
  cases hl : lookupD st key with
  | none => exact ⟨emptyDocP0 now, by simp [hl, lookupD_setD]⟩
  | some d0 => exact ⟨d0, by simp [hl]⟩

/-- `publish-wagon` of `part_000`, written against the lazily-created store
`st1` and the document `d` it holds for the caller's key. -/
theorem publishWagonP0_eq (stP : Store) (pending : Pending) (now : Nat)
    (u : Option Value) (wd : Option Value) (st1 : Store) (d : Doc)
    (hst1 : st1 = if (lookupD stP (keyFor u)).isNone
        then setD stP (keyFor u) (emptyDocP0 now) else stP)
    (hd : lookupD st1 (keyFor u) = some d) :
    publishWagonP0 stP pending now u wd
      = match wd with
        | some w =>
            if jsFalsy w then (st1, pending)
            else if w ≠ d.wagonData then
              (setD st1 (keyFor u) ⟨d.matchData, d.overlays, w, some now⟩,
                scheduleUpdate pending (keyFor u) ⟨"wagon", .obj [("wagonData", w)]⟩)
            else (st1, pending)
        | none => (st1, pending) := by
  subst hst1
  simp only [publishWagonP0, hd, Option.getD_some]

theorem publishWagonP0_post (stP : Store) (pending : Pending) (now : Nat)
    (u : Option Value) (w : Value) (hfalsy : jsFalsy w = false) :
    ∃ d : Doc, lookupD (publishWagonP0 stP pending now u (some w)).1 (keyFor u) = some d ∧
      d.wagonData = w := by
  obtain ⟨d0, hd0⟩ := joinSt_lookup stP (keyFor u) now
  rw [publishWagonP0_eq stP pending now u (some w) _ d0 rfl hd0]
  simp only [hfalsy, Bool.false_eq_true, if_false]
  by_cases hww : w = d0.wagonData
  · rw [if_neg (fun hne => hne hww)]
    exact ⟨d0, hd0, hww.symm⟩
  · rw [if_pos hww]
    refine ⟨⟨d0.matchData, d0.overlays, w, some now⟩, ?_, rfl⟩
    rw [lookupD_setD, if_pos rfl]

theorem publishWagonP0_stable (stP : Store) (pending : Pending) (now : Nat)
    (u : Option Value) (w : Value) (d : Doc)
    (hfalsy : jsFalsy w = false)
    (hd : lookupD stP (keyFor u) = some d) (hw : d.wagonData = w) :
    publishWagonP0 stP pending now u (some w) = (stP, pending) := by
  have hst1 : (if (lookupD stP (keyFor u)).isNone
      then setD stP (keyFor u) (emptyDocP0 now) else stP) = stP := by
    rw [hd]
    simp
  rw [publishWagonP0_eq stP pending now u (some w) stP d hst1.symm hd]
  simp only [hfalsy, Bool.false_eq_true, if_false]
  rw [if_neg (fun hne => hne hw.symm)]
theorem scheduleUpdate_changes (P : Pending) (t : String) (x : PUpd) :
    lookupP (scheduleUpdate P t x) t ≠ lookupP P t := by
  rw [lookupP_schedule, if_pos rfl]
  cases hP : lookupP P t with
  | none => simp
  | some q =>
      simp only [Option.getD_some]
      intro hc
      have hq := Option.some.inj hc
      have hl := congrArg List.length hq
      simp at hl

/-- `publish-update` of `part_000` at object payloads, written against the
lazily-created store `st1` and the document `d` it holds. -/
theorem publishUpdateP0_objs_eq (stP : Store) (pending : Pending) (now : Nat)
    (u : Option Value) (mfs ofs : List (String × Value)) (st1 : Store) (d : Doc)
    (hst1 : st1 = if (lookupD stP (keyFor u)).isNone
        then setD stP (keyFor u) (emptyDocP0 now) else stP)
    (hd : lookupD st1 (keyFor u) = some d) :
    publishUpdateP0 stP pending now u (some (.obj mfs)) (some (.obj ofs))
      = (setD st1 (keyFor u)
          ⟨(if (diffObjects d.matchData (.obj mfs)).length > 0
              then spreadMerge d.matchData (.obj mfs) else d.matchData),
           (if (diffObjects d.overlays (.obj ofs)).length > 0
              then spreadMerge d.overlays (.obj ofs) else d.overlays),
           d.wagonData, some now⟩,
         if ((if (diffObjects d.matchData (.obj mfs)).length > 0
              then [("matchData", Value.obj (diffObjects d.matchData (.obj mfs)))]
              else []) ++
             (if (diffObjects d.overlays (.obj ofs)).length > 0
              then [("overlays", Value.obj (diffObjects d.overlays (.obj ofs)))]
              else ([] : List (String × Value)))).length > 0
         then scheduleUpdate pending (keyFor u) ⟨"update", .obj
            ((if (diffObjects d.matchData (.obj mfs)).length > 0
              then [("matchData", Value.obj (diffObjects d.matchData (.obj mfs)))]
              else []) ++
             (if (diffObjects d.overlays (.obj ofs)).length > 0
              then [("overlays", Value.obj (diffObjects d.overlays (.obj ofs)))]
              else []))⟩
         else pending) := by
  subst hst1
  simp only [publishUpdateP0, hd, Option.getD_some, jsFalsy_obj, Bool.false_eq_true,
    if_false]
  by_cases hdm : (diffObjects d.matchData (.obj mfs)).length > 0 <;>
    by_cases hdo : (diffObjects d.overlays (.obj ofs)).length > 0 <;>
      simp [hdm, hdo]

theorem publishUpdateP0_post2 (stP : Store) (pending : Pending) (now : Nat)
    (u : Option Value) (mfs ofs : List (String × Value)) :
    ∃ d1, lookupD (publishUpdateP0 stP pending now u (some (.obj mfs))
          (some (.obj ofs))).1 (keyFor u) = some d1 ∧
      diffObjects d1.matchData (.obj mfs) = [] ∧
      diffObjects d1.overlays (.obj ofs) = [] := by
  obtain ⟨d0, hd0⟩ := joinSt_lookup stP (keyFor u) now
  rw [publishUpdateP0_objs_eq stP pending now u mfs ofs _ d0 rfl hd0]
  refine ⟨⟨(if (diffObjects d0.matchData (.obj mfs)).length > 0
      then spreadMerge d0.matchData (.obj mfs) else d0.matchData),
    (if (diffObjects d0.overlays (.obj ofs)).length > 0
      then spreadMerge d0.overlays (.obj ofs) else d0.overlays),
    d0.wagonData, some now⟩, ?_, ?_, ?_⟩
  · show lookupD (setD _ (keyFor u) _) (keyFor u) = _
    rw [lookupD_setD, if_pos rfl]
  · show diffObjects (if (diffObjects d0.matchData (.obj mfs)).length > 0
        then spreadMerge d0.matchData (.obj mfs) else d0.matchData) (.obj mfs) = []
    by_cases hdm : (diffObjects d0.matchData (.obj mfs)).length > 0
    · rw [if_pos hdm]
      exact diffObjects_after_merge d0.matchData mfs
    · rw [if_neg hdm]
      exact List.eq_nil_of_length_eq_zero (Nat.eq_zero_of_not_pos hdm)
  · show diffObjects (if (diffObjects d0.overlays (.obj ofs)).length > 0
        then spreadMerge d0.overlays (.obj ofs) else d0.overlays) (.obj ofs) = []
    by_cases hdo : (diffObjects d0.overlays (.obj ofs)).length > 0
    · rw [if_pos hdo]
      exact diffObjects_after_merge d0.overlays ofs
    · rw [if_neg hdo]
      exact List.eq_nil_of_length_eq_zero (Nat.eq_zero_of_not_pos hdo)

theorem publishUpdateP0_objs_noop (stP : Store) (pending : Pending) (now : Nat)
    (u : Option Value) (mfs ofs : List (String × Value)) (d1 : Doc)
    (hd : lookupD stP (keyFor u) = some d1)
    (hm : diffObjects d1.matchData (.obj mfs) = [])
    (ho : diffObjects d1.overlays (.obj ofs) = []) :
    (publishUpdateP0 stP pending now u (some (.obj mfs)) (some (.obj ofs))).2
      = pending := by
  have hst1 : (if (lookupD stP (keyFor u)).isNone
      then setD stP (keyFor u) (emptyDocP0 now) else stP) = stP := by
    rw [hd]
    simp
  rw [publishUpdateP0_objs_eq stP pending now u mfs ofs stP d1 hst1.symm hd]
  simp [hm, ho]

theorem publishUpdateP0_enqueues (stP : Store) (pending : Pending) (now : Nat)
    (u : Option Value) (mfs ofs : List (String × Value)) (d : Doc)
    (hd : lookupD stP (keyFor u) = some d)
    (hdm : (diffObjects d.matchData (.obj mfs)).length > 0) :
    ∃ x, (publishUpdateP0 stP pending now u (some (.obj mfs)) (some (.obj ofs))).2
      = scheduleUpdate pending (keyFor u) x := by
  have hst1 : (if (lookupD stP (keyFor u)).isNone
      then setD stP (keyFor u) (emptyDocP0 now) else stP) = stP := by
    rw [hd]
    simp
  rw [publishUpdateP0_objs_eq stP pending now u mfs ofs stP d hst1.symm hd]
  simp only [hdm, if_true]
  rw [if_pos (by simp [hdm])]
  exact ⟨_, rfl⟩

theorem publishUpdateIx_fresh_store (st : Store) (now : Nat) (u : Option Value)
    (mfs ofs : List (String × Value)) (hfresh : lookupD st (keyFor u) = none) :
    (publishUpdateIx st now u (some (.obj mfs)) (some (.obj ofs))).1
      = setD st (keyFor u) ⟨.obj mfs, .obj ofs, .arr [], some now⟩ := by
  simp [publishUpdateIx, hfresh, spreadMerge_empty_obj]

theorem publishUpdateIx_fresh_ne (st : Store) (now : Nat) (u : Option Value)
    (mfs ofs : List (String × Value)) (hfresh : lookupD st (keyFor u) = none)
    (hmfs : mfs ≠ []) :
    (publishUpdateIx st now u (some (.obj mfs)) (some (.obj ofs))).2 ≠ [] := by
  intro hc
  simp only [publishUpdateIx, hfresh, Option.getD_none, orEmptyObj_obj] at hc
  have hne := deepDiffOps_from_empty_ne_nil hmfs ["matchData"]
  split at hc
  · simp at hc
  · split at hc
    · simp at hc
    · rename_i hlen
      rw [List.length_append] at hlen
      have h0 : (deepDiffOps (.obj []) (.obj mfs) ["matchData"]).length = 0 := by omega
      exact hne (List.eq_nil_of_length_eq_zero h0)

theorem publishUpdateIx_selfobjs_silent (st2 : Store) (now2 : Nat) (u : Option Value)
    (mfs ofs : List (String × Value)) (d2 : Doc)
    (hd : lookupD st2 (keyFor u) = some d2)
    (hm : d2.matchData = .obj mfs) (ho : d2.overlays = .obj ofs)
    (hscal : ∀ sfs2, lookupF mfs "score" = some (.obj sfs2) →
      ∀ kv ∈ sfs2, isScalar kv.2 = true) :
    (publishUpdateIx st2 now2 u (some (.obj mfs)) (some (.obj ofs))).2 = [] := by
  simp only [publishUpdateIx, hd, Option.getD_some, hm, ho, orEmptyObj_obj,
    deepDiffOps_self]
  cases hlf : lookupF mfs "score" with
  | none => simp [hlf]
  | some sv =>
      cases sv with
      | obj sfs2 =>
          have hps := prevScoreOf_obj mfs sfs2 hlf
          have hsp := scorePatch_self_scalar sfs2 (hscal sfs2 hlf)
          simp [hlf, hps, hsp]
      | null => simp [hlf]
      | bool b => simp [hlf]
      | num n => simp [hlf]
      | str s => simp [hlf]
      | arr xs => simp [hlf]

/-- C5 (counterexample): the claim's "no enqueue or emission on the second
call" fails for `index.js`. Publishing the same sequence twice makes the
second `publish-wagon` emit a full `wagon-update` (the `k = 0` append case is
not silent), and publishing the same `overlays` partial twice onto a document
that already held another overlay key makes the second `publish-update` emit a
`state-patch` carrying a tombstone for the key in the stored-minus-payload
difference. -/
theorem claim5_counterexample :
    (publishWagonIx
        (publishWagonIx [] 1 none (some (.arr [.str "a"]))).1 2 none
        (some (.arr [.str "a"]))).2 = [Emit.wagonUpdate "default" [.str "a"]] ∧
    (publishUpdateIx
        (publishUpdateIx [("default", ⟨.obj [], .obj [("a", .num 1)], .arr [], some 0⟩)]
          1 none none (some (.obj [("b", .num 2)]))).1
        2 none none (some (.obj [("b", .num 2)]))).2
      = [Emit.statePatch "default" [⟨["overlays", "a"], none⟩]] := by
  decide

/-- C5 (amended): idempotence holds for `part_000` and, on a fresh tenant, for
`index.js`. (a) `publish-wagon` of `part_000`: republishing a stored truthy
sequence is a complete no-op. (b) `publish-update` of `part_000`: a call whose
`matchData` object diffs non-trivially against the stored document enqueues a
descriptor (the pending queue observably changes). (c) `publish-update` of
`part_000`: an immediate second call with the same object payloads enqueues
nothing. (d) `publish-update` of `index.js` on a fresh tenant with a non-empty
`matchData` object (its `score` entries scalar if present): the first call
emits at least one message, the identical second call emits none. For already
populated `index.js` tenants the second call can still emit (see the
counterexample). -/
theorem claim5_amended (u : Option Value) :
    (∀ (stP : Store) (pending : Pending) (now now2 : Nat) (w : Value),
      jsFalsy w = false →
      publishWagonP0 (publishWagonP0 stP pending now u (some w)).1
          (publishWagonP0 stP pending now u (some w)).2 now2 u (some w)
        = ((publishWagonP0 stP pending now u (some w)).1,
           (publishWagonP0 stP pending now u (some w)).2)) ∧
    (∀ (stP : Store) (pending : Pending) (now : Nat)
        (mfs ofs : List (String × Value)) (d : Doc),
      lookupD stP (keyFor u) = some d →
      (diffObjects d.matchData (.obj mfs)).length > 0 →
      lookupP (publishUpdateP0 stP pending now u (some (.obj mfs))
          (some (.obj ofs))).2 (keyFor u)
        ≠ lookupP pending (keyFor u)) ∧
    (∀ (stP : Store) (pending : Pending) (now now2 : Nat)
        (mfs ofs : List (String × Value)),
      (publishUpdateP0
          (publishUpdateP0 stP pending now u (some (.obj mfs)) (some (.obj ofs))).1
          (publishUpdateP0 stP pending now u (some (.obj mfs)) (some (.obj ofs))).2
          now2 u (some (.obj mfs)) (some (.obj ofs))).2
        = (publishUpdateP0 stP pending now u (some (.obj mfs)) (some (.obj ofs))).2) ∧
    (∀ (st : Store) (now now2 : Nat) (mfs ofs : List (String × Value)),
      lookupD st (keyFor u) = none → mfs ≠ [] →
      (∀ sfs2, lookupF mfs "score" = some (.obj sfs2) →
        ∀ kv ∈ sfs2, isScalar kv.2 = true) →
      (publishUpdateIx st now u (some (.obj mfs)) (some (.obj ofs))).2 ≠ [] ∧
      (publishUpdateIx
          (publishUpdateIx st now u (some (.obj mfs)) (some (.obj ofs))).1
          now2 u (some (.obj mfs)) (some (.obj ofs))).2 = []) := by
  refine ⟨?_, ?_, ?_, ?_⟩
  · intro stP pending now now2 w hfalsy
    obtain ⟨d1, hd1, hw1⟩ := publishWagonP0_post stP pending now u w hfalsy
    exact publishWagonP0_stable _ _ now2 u w d1 hfalsy hd1 hw1
  · intro stP pending now mfs ofs d hd hdm
    obtain ⟨x, hx⟩ := publishUpdateP0_enqueues stP pending now u mfs ofs d hd hdm
    rw [hx]
    exact scheduleUpdate_changes pending (keyFor u) x
  · intro stP pending now now2 mfs ofs
    obtain ⟨d1, hd1, hm1, ho1⟩ := publishUpdateP0_post2 stP pending now u mfs ofs
    exact publishUpdateP0_objs_noop _ _ now2 u mfs ofs d1 hd1 hm1 ho1
  · intro st now now2 mfs ofs hfresh hmfs hscal
    refine ⟨publishUpdateIx_fresh_ne st now u mfs ofs hfresh hmfs, ?_⟩
    rw [publishUpdateIx_fresh_store st now u mfs ofs hfresh]
    have hd2 : lookupD (setD st (keyFor u) ⟨.obj mfs, .obj ofs, .arr [], some now⟩)
        (keyFor u) = some ⟨.obj mfs, .obj ofs, .arr [], some now⟩ := by
      rw [lookupD_setD, if_pos rfl]
    exact publishUpdateIx_selfobjs_silent _ now2 u mfs ofs _ hd2 rfl rfl hscal

theorem claim5_amended_witness :
    (publishWagonP0 (publishWagonP0 [] [] 1 none (some (.arr [.num 3]))).1
        (publishWagonP0 [] [] 1 none (some (.arr [.num 3]))).2 2 none (some (.arr [.num 3]))
      = ((publishWagonP0 [] [] 1 none (some (.arr [.num 3]))).1,
         (publishWagonP0 [] [] 1 none (some (.arr [.num 3]))).2)) ∧
    (lookupP (publishUpdateP0 [("default", ⟨.obj [], .obj [], .obj [], some 0⟩)] [] 3 none
          (some (.obj [("s", .num 1)])) (some (.obj []))).2 "default"
        ≠ lookupP [] "default") ∧
    ((publishUpdateP0
        (publishUpdateP0 [("default", ⟨.obj [], .obj [], .obj [], some 0⟩)] [] 3
          none (some (.obj [("s", .num 1)])) (some (.obj []))).1
        (publishUpdateP0 [("default", ⟨.obj [], .obj [], .obj [], some 0⟩)] [] 3 none
          (some (.obj [("s", .num 1)])) (some (.obj []))).2 4 none
        (some (.obj [("s", .num 1)])) (some (.obj []))).2
      = (publishUpdateP0 [("default", ⟨.obj [], .obj [], .obj [], some 0⟩)] [] 3 none
          (some (.obj [("s", .num 1)])) (some (.obj []))).2) ∧
    ((publishUpdateIx [] 1 none (some (.obj [("s", .num 1)]))
          (some (.obj [("o", .num 2)]))).2 ≠ [] ∧
      (publishUpdateIx
          (publishUpdateIx [] 1 none (some (.obj [("s", .num 1)]))
            (some (.obj [("o", .num 2)]))).1 2 none (some (.obj [("s", .num 1)]))
          (some (.obj [("o", .num 2)]))).2 = []) := by
  have h := claim5_amended none
  refine ⟨h.1 [] [] 1 2 (.arr [.num 3]) rfl, ?_, ?_, ?_⟩
  · exact h.2.1 [("default", ⟨.obj [], .obj [], .obj [], some 0⟩)] [] 3
      [("s", .num 1)] [] ⟨.obj [], .obj [], .obj [], some 0⟩ (by decide) (by decide)
  · exact h.2.2.1 [("default", ⟨.obj [], .obj [], .obj [], some 0⟩)] [] 3 4
      [("s", .num 1)] []
  · exact h.2.2.2 [] 1 2 [("s", .num 1)] [("o", .num 2)] rfl (by decide)
      (by intro sfs2 hny _ _; simp [lookupF] at hny)

theorem claim3_amended_witness :
    (∃ rest,
      (publishUpdateIx
          [("default", ⟨.obj [("score", .obj [("home", .num 1)])], .obj [], .arr [],
              some 0⟩)]
          1 none (some (.obj [("score", .obj [("home", .num 2)])])) none).2
        = Emit.scoreUpdate "default"
            (scorePatchOf (.obj [("home", .num 1)]) (.obj [("home", .num 2)])) :: rest) ∧
    (∃ v, ("home", v) ∈ scorePatchOf (.obj [("home", .num 1)]) (.obj [("home", .num 2)])) := by
  have h := claim3_amended
    [("default", ⟨.obj [("score", .obj [("home", .num 1)])], .obj [], .arr [], some 0⟩)]
    1 none none ⟨.obj [("score", .obj [("home", .num 1)])], .obj [], .arr [], some 0⟩
    [("score", .obj [("home", .num 2)])] [("home", .num 2)] [("home", .num 1)]
    (by decide) (by decide) (by decide) (by decide) (by decide) ⟨"home", by decide⟩
  exact ⟨h.1, (h.2.1 "home").mpr (by decide)⟩

/-! ### Claim C7 -/

/-- C7 (counterexample): the claim fails for `part_001`, which *replaces* the
stored overlays with the payload instead of merging: after publishing the
partial `{b: 2}` onto stored overlays `{a: 1}`, the previously-present key `a`
is gone, although a shallow merge would have preserved it. -/
theorem claim7_counterexample :
    (publishUpdateP1 [("default", ⟨.obj [], .obj [("a", .num 1)], .obj [], some 0⟩)] [] 1
        none none (some (.obj [("b", .num 2)]))).1
      = [("default", ⟨.obj [], .obj [("b", .num 2)], .obj [], some 1⟩)] ∧
    lookupF (objFields (Value.obj [("b", .num 2)])) "a" = none ∧
    lookupF [("a", .num 1)] "a" = some (.num 1) := by
  decide

/-- C7 (amended): in `index.js` (but not in `part_001`, see the
counterexample): after `publish-update` with an overlays partial, the stored
overlays is the shallow spread merge `{...prev.overlays, ...overlays}`: every
key of the partial reads back its new value, and every key absent from the
partial reads back its previous value. -/
theorem claim7_amended (st : Store) (now : Nat) (u md : Option Value)
    (ofs : List (String × Value)) (prev : Doc) (pofs : List (String × Value))
    (hst : lookupD st (keyFor u) = some prev)
    (hpo : prev.overlays = .obj pofs) :
    ∃ doc, lookupD (publishUpdateIx st now u md (some (.obj ofs))).1 (keyFor u)
        = some doc ∧
      doc.overlays = spreadMerge prev.overlays (.obj ofs) ∧
      (∀ k v, lookupF ofs k = some v → lookupF (objFields doc.overlays) k = some v) ∧
      (∀ k, lookupF ofs k = none →
        lookupF (objFields doc.overlays) k = lookupF pofs k) := by
  have h1 : (publishUpdateIx st now u md (some (.obj ofs))).1
      = setD st (keyFor u)
          ⟨(match md with
            | some m => m
            | none => orEmptyObj prev.matchData),
            spreadMerge prev.overlays (.obj ofs), prev.wagonData, some now⟩ := by
    simp [publishUpdateIx, hst]
  obtain ⟨M, hM⟩ : ∃ M, (match md with
      | some m => m
      | none => orEmptyObj prev.matchData) = M := ⟨_, rfl⟩
  rw [hM] at h1
  refine ⟨⟨M, spreadMerge prev.overlays (.obj ofs), prev.wagonData, some now⟩,
    ?_, rfl, ?_, ?_⟩
  · rw [h1, lookupD_setD, if_pos rfl]
  · intro k v hv
    show lookupF (objFields (spreadMerge prev.overlays (.obj ofs))) k = some v
    rw [hpo]
    show lookupF (mergeFields pofs ofs) k = some v
    rw [lookupF_mergeFields, hv]
  · intro k hk
    show lookupF (objFields (spreadMerge prev.overlays (.obj ofs))) k = lookupF pofs k
    rw [hpo]
    show lookupF (mergeFields pofs ofs) k = lookupF pofs k
    rw [lookupF_mergeFields, hk]

theorem claim7_amended_witness :
    ∃ doc,
      lookupD (publishUpdateIx [("default", ⟨.obj [], .obj [("a", .num 1)], .arr [],
          some 0⟩)] 1 none none (some (.obj [("b", .num 2)]))).1 "default" = some doc ∧
      doc.overlays = spreadMerge (.obj [("a", .num 1)]) (.obj [("b", .num 2)]) ∧
      lookupF (objFields doc.overlays) "b" = some (.num 2) ∧
      lookupF (objFields doc.overlays) "a" = lookupF [("a", .num 1)] "a" := by
  obtain ⟨doc, hdoc, hov, hnew, hold⟩ := claim7_amended
    [("default", ⟨.obj [], .obj [("a", .num 1)], .arr [], some 0⟩)] 1 none none
    [("b", .num 2)] ⟨.obj [], .obj [("a", .num 1)], .arr [], some 0⟩ [("a", .num 1)]
    (by decide) rfl
  exact ⟨doc, hdoc, hov, hnew "b" (.num 2) (by decide), hold "a" (by decide)⟩

/-! ### Claim C8 -/

theorem lookupD_setD_self (st : Store) (key : String) (d : Doc) :
    lookupD (setD st key d) key = some d := by
  rw [lookupD_setD, if_pos rfl]

theorem joinP0_existing (st : Store) (now : Nat) (u : Option Value) (d : Doc)
    (hd : lookupD st (keyFor u) = some d) :
    joinP0 st now u = (st, d) := by
  simp [joinP0, hd]

/-- C8 (counterexample): the fallback document of the `index.js` GET route has
`matchData: null`, not the empty mapping, and the route persists nothing — a
later read of the store still finds no document. The `join` handler of
`part_000` does persist a lazily-created document, but with `wagonData` an
empty *object* (not the empty sequence) and `updatedAt` the current time (not
`null`). -/
theorem claim8_counterexample :
    getStateIx [] none = (⟨.null, .obj [], .arr [], none⟩, []) ∧
    (Value.null ≠ Value.obj []) ∧
    lookupD (getStateIx [] none).2 "default" = none ∧
    (joinP0 [] 7 none).2.wagonData = .obj [] ∧
    (Value.obj [] ≠ Value.arr ([] : List Value)) ∧
    (joinP0 [] 7 none).2.updatedAt = some 7 := by
  decide

/-- C8 (amended): a read of a never-referenced tenant never fails in either
variant, but the two deviate from the claimed contract differently. The GET
route of `index.js` answers the fallback `{matchData: null, overlays: {},
wagonData: [], updatedAt: null}` and leaves the store untouched. The `join`
handler of `part_000` persists the lazily-created `{matchData: {},
overlays: {}, wagonData: {}, updatedAt: now}`; a second join returns that same
stored document unchanged. -/
theorem claim8_amended (u : Option Value) :
    (∀ st : Store, lookupD st (keyFor u) = none →
      getStateIx st u = (⟨.null, .obj [], .arr [], none⟩, st)) ∧
    (∀ (st : Store) (now : Nat), lookupD st (keyFor u) = none →
      (joinP0 st now u).2 = emptyDocP0 now ∧
      lookupD (joinP0 st now u).1 (keyFor u) = some (emptyDocP0 now) ∧
      (∀ now2, joinP0 (joinP0 st now u).1 now2 u
        = ((joinP0 st now u).1, emptyDocP0 now))) := by
  constructor
  · intro st h
    simp [getStateIx, h]
  · intro st now h
    have hj1 : (joinP0 st now u).1 = setD st (keyFor u) (emptyDocP0 now) := by
      simp [joinP0, h]
    have hl : lookupD (joinP0 st now u).1 (keyFor u) = some (emptyDocP0 now) := by
      rw [hj1, lookupD_setD_self]
    refine ⟨?_, hl, ?_⟩
    · simp [joinP0, h, lookupD_setD]
    · intro now2
      exact joinP0_existing _ now2 u _ hl

theorem claim8_amended_witness :
    getStateIx [] none = (⟨.null, .obj [], .arr [], none⟩, []) ∧
    (joinP0 [] 7 none).2 = emptyDocP0 7 ∧
    lookupD (joinP0 [] 7 none).1 "default" = some (emptyDocP0 7) ∧
    joinP0 (joinP0 [] 7 none).1 9 none = ((joinP0 [] 7 none).1, emptyDocP0 7) := by
  have h := claim8_amended none
  obtain ⟨h2a, h2b, h2c⟩ := h.2 [] 7 rfl
  exact ⟨h.1 [] rfl, h2a, h2b, h2c 9⟩

/-! ### Claim C9 -/

/-- C9 (counterexample): not every malformed publish input is absorbed. In
`index.js`, a `null` payload reaches destructuring (only an *absent* payload
gets the `= {}` default) and throws. In `part_000`, the handler has no default
at all, so an absent payload throws. And a missing `matchData` field is not a
perfect partial no-op in `index.js`: a falsy stored `matchData` (here `null`)
is rewritten to `{}` by `prev.matchData || {}` even though the payload did not
mention the field. -/
theorem claim9_counterexample :
    publishUpdateIxRaw [] 0 (some .null) = .error () ∧
    publishUpdateP0Raw [] [] 0 none = .error () ∧
    (publishUpdateIx [("default", ⟨.null, .obj [], .arr [], some 0⟩)] 1 none none none).1
      = [("default", ⟨.obj [], .obj [], .arr [], some 1⟩)] :=
  ⟨rfl, rfl, by decide⟩

/-- C9 (amended): object payloads (and, for `index.js`, absent payloads) never
throw: the raw entry points return a result for every object payload. And for
a document whose stored `matchData` and `overlays` are truthy, an `index.js`
`publish-update` without `matchData`/`overlays` fields leaves both fields
unchanged (only `updatedAt` is refreshed) and emits nothing. The absorptions
fail for `null`/absent payloads and falsy stored fields (see the
counterexample). -/
theorem claim9_amended :
    (∀ (st : Store) (now : Nat) (fs : List (String × Value)),
      ∃ r, publishUpdateIxRaw st now (some (.obj fs)) = .ok r) ∧
    (∀ (st : Store) (now : Nat), ∃ r, publishUpdateIxRaw st now none = .ok r) ∧
    (∀ (st : Store) (p : Pending) (now : Nat) (fs : List (String × Value)),
      ∃ r, publishUpdateP0Raw st p now (some (.obj fs)) = .ok r) ∧
    (∀ (st : Store) (now : Nat) (u : Option Value) (prev : Doc),
      lookupD st (keyFor u) = some prev →
      jsFalsy prev.matchData = false → jsFalsy prev.overlays = false →
      (publishUpdateIx st now u none none).1
        = setD st (keyFor u) ⟨prev.matchData, prev.overlays, prev.wagonData, some now⟩ ∧
      (publishUpdateIx st now u none none).2 = []) := by
  refine ⟨?_, ?_, ?_, ?_⟩
  · intro st now fs
    exact ⟨_, rfl⟩
  · intro st now
    exact ⟨_, rfl⟩
  · intro st p now fs
    exact ⟨_, rfl⟩
  · intro st now u prev hst hm ho
    constructor
    · simp [publishUpdateIx, hst, orEmptyObj, hm, ho]
    · simp [publishUpdateIx, hst]

theorem claim9_amended_witness :
    (∃ r, publishUpdateIxRaw [] 0 (some (.obj [("userId", .str "u1")])) = .ok r) ∧
    (∃ r, publishUpdateIxRaw [] 0 none = .ok r) ∧
    (∃ r, publishUpdateP0Raw [] [] 0 (some (.obj [])) = .ok r) ∧
    ((publishUpdateIx [("default", ⟨.obj [("x", .num 1)], .obj [("y", .num 2)],
          .arr [.num 3], some 0⟩)] 5 none none none).1
      = setD [("default", ⟨.obj [("x", .num 1)], .obj [("y", .num 2)],
          .arr [.num 3], some 0⟩)] "default"
          ⟨.obj [("x", .num 1)], .obj [("y", .num 2)], .arr [.num 3], some 5⟩ ∧
     (publishUpdateIx [("default", ⟨.obj [("x", .num 1)], .obj [("y", .num 2)],
          .arr [.num 3], some 0⟩)] 5 none none none).2 = []) := by
  have h := claim9_amended
  refine ⟨h.1 [] 0 [("userId", .str "u1")], h.2.1 [] 0, h.2.2.1 [] [] 0 [], ?_⟩
  exact h.2.2.2 [("default", ⟨.obj [("x", .num 1)], .obj [("y", .num 2)],
      .arr [.num 3], some 0⟩)] 5 none
    ⟨.obj [("x", .num 1)], .obj [("y", .num 2)], .arr [.num 3], some 0⟩
    (by decide) rfl rfl

/-! ### Claim C10 -/

/-- C10: for an existing tenant document, `publish-wagon` (both variants)
leaves `matchData` and `overlays` unchanged, and `publish-update` (both
variants) leaves `wagonData` unchanged: only the targeted fields and
`updatedAt` can differ between the old and new document. -/
theorem claim10_frame (u : Option Value) :
    (∀ (st : Store) (now : Nat) (wd : Option Value) (prev : Doc),
      lookupD st (keyFor u) = some prev →
      ∃ doc, lookupD (publishWagonIx st now u wd).1 (keyFor u) = some doc ∧
        doc.matchData = prev.matchData ∧ doc.overlays = prev.overlays) ∧
    (∀ (st : Store) (now : Nat) (md ov : Option Value) (prev : Doc),
      lookupD st (keyFor u) = some prev →
      ∃ doc, lookupD (publishUpdateIx st now u md ov).1 (keyFor u) = some doc ∧
        doc.wagonData = prev.wagonData) ∧
    (∀ (st : Store) (p : Pending) (now : Nat) (wd : Option Value) (prev : Doc),
      lookupD st (keyFor u) = some prev →
      ∃ doc, lookupD (publishWagonP0 st p now u wd).1 (keyFor u) = some doc ∧
        doc.matchData = prev.matchData ∧ doc.overlays = prev.overlays) ∧
    (∀ (st : Store) (p : Pending) (now : Nat) (md ov : Option Value) (prev : Doc),
      lookupD st (keyFor u) = some prev →
      ∃ doc, lookupD (publishUpdateP0 st p now u md ov).1 (keyFor u) = some doc ∧
        doc.wagonData = prev.wagonData) := by
  refine ⟨?_, ?_, ?_, ?_⟩
  · intro st now wd prev hst
    simp only [publishWagonIx, hst, Option.getD_some]
    exact ⟨_, lookupD_setD_self _ _ _, rfl, rfl⟩
  · intro st now md ov prev hst
    simp only [publishUpdateIx, hst, Option.getD_some]
    exact ⟨_, lookupD_setD_self _ _ _, rfl⟩
  · intro st p now wd prev hst
    have hst1 : (if (lookupD st (keyFor u)).isNone
        then setD st (keyFor u) (emptyDocP0 now) else st) = st := by
      rw [hst]
      simp
    rw [publishWagonP0_eq st p now u wd st prev hst1.symm hst]
    cases wd with
    | none => exact ⟨prev, hst, rfl, rfl⟩
    | some w =>
        dsimp only
        by_cases hf : jsFalsy w = true
        · rw [if_pos hf]
          exact ⟨prev, hst, rfl, rfl⟩
        · rw [if_neg hf]
          by_cases hne : w ≠ prev.wagonData
          · rw [if_pos hne]
            exact ⟨_, lookupD_setD_self _ _ _, rfl, rfl⟩
          · rw [if_neg hne]
            exact ⟨prev, hst, rfl, rfl⟩
  · intro st p now md ov prev hst
    simp only [publishUpdateP0, hst, Option.isNone_some, Bool.false_eq_true, if_false,
      Option.getD_some]
    exact ⟨_, lookupD_setD_self _ _ _, rfl⟩

theorem claim10_frame_witness :
    (∃ doc, lookupD (publishWagonIx [("default", ⟨.obj [("m", .num 1)],
          .obj [("o", .num 2)], .arr [], some 0⟩)] 3 none (some (.arr [.num 9]))).1
        "default" = some doc ∧
      doc.matchData = Value.obj [("m", .num 1)] ∧
      doc.overlays = Value.obj [("o", .num 2)]) ∧
    (∃ doc, lookupD (publishUpdateIx [("default", ⟨.obj [("m", .num 1)],
          .obj [("o", .num 2)], .arr [.num 7], some 0⟩)] 3 none
          (some (.obj [("m", .num 4)])) none).1 "default" = some doc ∧
      doc.wagonData = Value.arr [.num 7]) ∧
    (∃ doc, lookupD (publishWagonP0 [("default", ⟨.obj [("m", .num 1)],
          .obj [("o", .num 2)], .obj [], some 0⟩)] [] 3 none (some (.arr [.num 9]))).1
        "default" = some doc ∧
      doc.matchData = Value.obj [("m", .num 1)] ∧
      doc.overlays = Value.obj [("o", .num 2)]) ∧
    (∃ doc, lookupD (publishUpdateP0 [("default", ⟨.obj [("m", .num 1)],
          .obj [("o", .num 2)], .obj [("w", .num 8)], some 0⟩)] [] 3 none
          (some (.obj [("m", .num 4)])) none).1 "default" = some doc ∧
      doc.wagonData = Value.obj [("w", .num 8)]) := by
  have h := claim10_frame none
  refine ⟨?_, ?_, ?_, ?_⟩
  · exact h.1 [("default", ⟨.obj [("m", .num 1)], .obj [("o", .num 2)], .arr [], some 0⟩)]
      3 (some (.arr [.num 9])) ⟨.obj [("m", .num 1)], .obj [("o", .num 2)], .arr [], some 0⟩
      (by decide)
  · exact h.2.1 [("default", ⟨.obj [("m", .num 1)], .obj [("o", .num 2)], .arr [.num 7],
        some 0⟩)] 3 (some (.obj [("m", .num 4)])) none
      ⟨.obj [("m", .num 1)], .obj [("o", .num 2)], .arr [.num 7], some 0⟩ (by decide)
  · exact h.2.2.1 [("default", ⟨.obj [("m", .num 1)], .obj [("o", .num 2)], .obj [],
        some 0⟩)] [] 3 (some (.arr [.num 9]))
      ⟨.obj [("m", .num 1)], .obj [("o", .num 2)], .obj [], some 0⟩ (by decide)
  · exact h.2.2.2 [("default", ⟨.obj [("m", .num 1)], .obj [("o", .num 2)],
        .obj [("w", .num 8)], some 0⟩)] [] 3 (some (.obj [("m", .num 4)])) none
      ⟨.obj [("m", .num 1)], .obj [("o", .num 2)], .obj [("w", .num 8)], some 0⟩
      (by decide)
